import Mathlib

/-!
Verification of the path-addressed immutable patch algorithm from
`src/features/modals/NodeEditModal/index.tsx`.

The development shallowly embeds the JavaScript/TypeScript source:

* `JVal` models a JavaScript value as handled by the source (JSON values
  plus `undefined`; arrays additionally carry their non-index string
  properties, since JavaScript array objects can hold such properties and
  `slice()` drops them).
* `getAtPath` / `setAtPath` embed the functions of the same names
  (lines 29-69 of the source).  `getAtPathE` / `setAtPathE` are the same
  computations in an `Except` monad in which every property access on a
  nullish receiver raises, so totality statements express that the
  source never throws.
* `buildReplacement`, `rowsToObject`, `applyEditsToRows`, `save` embed
  the body of the `save` handler (lines 87-142).
* A second, heap-instrumented embedding (`Heap`, `setAtPathH`,
  `resolveH`) makes reference identity explicit in order to state the
  structural-sharing (frame) property.
-/

/-- A path segment: the source types paths as `Array<string | number>`,
with numbers used as (non-negative) array indices. -/
inductive Seg where
  | str (s : String)
  | num (n : Nat)
deriving DecidableEq, Repr

/-- The character of a decimal digit (`0`-`9`). -/
def digitChar (d : Nat) : Char := Char.ofNat (48 + d)

/-- The digit denoted by a character, if any. -/
def digit? (c : Char) : Option Nat :=
  if 48 ≤ c.toNat ∧ c.toNat ≤ 57 then some (c.toNat - 48) else none

/-- Decimal digits of `n`, most significant first (`fuel`-structured so
that the kernel can evaluate it; any `fuel > n` is adequate). -/
def natDigitsAux : Nat → Nat → List Char
  | 0, _ => []
  | fuel + 1, n =>
      if n < 10 then [digitChar n]
      else natDigitsAux fuel (n / 10) ++ [digitChar (n % 10)]

/-- Decimal digits of `n`, most significant first. -/
def natDigits (n : Nat) : List Char := natDigitsAux (n + 1) n

/-- The canonical decimal string of `n` (the JavaScript `ToString` of a
non-negative integer, used as property key). -/
def natKey (n : Nat) : String := String.mk (natDigits n)

/-- Fold decimal digits onto an accumulator; `none` on a non-digit. -/
def natParseGo : List Char → Nat → Option Nat
  | [], acc => some acc
  | c :: cs, acc =>
      match digit? c with
      | some d => natParseGo cs (acc * 10 + d)
      | none => none

/-- A canonical numeral is non-empty and has no leading zero (except the
numeral `"0"` itself). -/
def isCanonDigits : List Char → Bool
  | [] => false
  | c :: rest => if c = '0' then rest.isEmpty else true

/-- JavaScript property-key coercion of a segment (`ToString`). -/
def segStr : Seg → String
  | .str s => s
  | .num n => natKey n

/-- Canonical array-index reading of a string key: `some n` iff the string
is the canonical decimal numeral of `n` (JS array index semantics). -/
def strIndex? (s : String) : Option Nat :=
  if isCanonDigits s.toList then natParseGo s.toList 0 else none

/-- Array-index reading of a segment. -/
def segIdx? : Seg → Option Nat
  | .num n => some n
  | .str s => strIndex? s

/-- Tests whether the segment is a number (`typeof seg === "number"`,
line 42 of the source decides array-vs-object creation with this test). -/
def segIsNum : Seg → Bool
  | .num _ => true
  | .str _ => false

/-- A JavaScript value as manipulated by the source: JSON values plus
`undefined`.  Arrays carry their element list and their non-index string
properties (`props`); objects are insertion-ordered string association
lists. -/
inductive JVal where
  | null
  | undef
  | bool (b : Bool)
  | num (n : Int)
  | str (s : String)
  | arr (elems : List JVal) (props : List (String × JVal))
  | obj (fields : List (String × JVal))

/-- First-match association lookup (JS own-property lookup on our
insertion-ordered field lists). -/
def alookup {α : Type} : List (String × α) → String → Option α
  | [], _ => none
  | (k, v) :: rest, key => if k = key then some v else alookup rest key

/-- JS property assignment on an ordered field list: update the first
occurrence of the key in place, else append the new key at the end. -/
def setKey {α : Type} : List (String × α) → String → α → List (String × α)
  | [], k, v => [(k, v)]
  | (k', v') :: rest, k, v =>
      if k' = k then (k, v) :: rest else (k', v') :: setKey rest k v

/-- JS array element assignment `xs[i] = v`: in-range indices are
overwritten; past-the-end indices extend the array, padding the gap
with `pad` (modelling the holes of a sparse JS array). -/
def listSetPad {α : Type} (xs : List α) (i : Nat) (v pad : α) : List α :=
  if i < xs.length then xs.set i v
  else xs ++ List.replicate (i - xs.length) pad ++ [v]

/-- Loose equality `x == null` (`null` or `undefined`). -/
def isNullish : JVal → Bool
  | .null => true
  | .undef => true
  | _ => false

/-- The character-indexed fields produced by spreading a string:
`{..."ab"}` is `{"0": "a", "1": "b"}`. -/
def charFields (s : String) : List (String × JVal) :=
  s.toList.enum.map fun p => (natKey p.1, JVal.str (String.mk [p.2]))

/-- Line 34 / line 45 of the source:
`Array.isArray(x) ? x.slice() : { ...x }`.  `slice` copies the elements
and drops non-index properties; spreading an object copies its fields in
order; spreading a primitive yields `{}` except for strings, which yield
their character-indexed fields. -/
def shallowCopy : JVal → JVal
  | .arr es _ => .arr es []
  | .obj fs => .obj fs
  | .str s => .obj (charFields s)
  | _ => .obj []

/-- JS property read `cur[seg]` on a non-nullish receiver.  Arrays are
indexed by canonical indices and otherwise by their string properties;
objects by the coerced string key; strings yield their characters at
canonical indices; other primitives have no own properties. -/
def jsIndex : JVal → Seg → JVal
  | .arr es ps, s =>
      match segIdx? s with
      | some i => es.getD i .undef
      | none => (alookup ps (segStr s)).getD .undef
  | .obj fs, s => (alookup fs (segStr s)).getD .undef
  | .str t, s =>
      match segIdx? s with
      | some i =>
          match t.toList.get? i with
          | some c => .str (String.mk [c])
          | none => .undef
      | none => .undef
  | _, _ => (.undef)

/-- JS property write `cur[seg] = v` on a container (the source only
writes to freshly copied containers, which are always arrays or
objects). -/
def jsSet : JVal → Seg → JVal → JVal
  | .arr es ps, s, v =>
      match segIdx? s with
      | some i => .arr (listSetPad es i v .undef) ps
      | none => .arr es (setKey ps (segStr s) v)
  | .obj fs, s, v => .obj (setKey fs (segStr s) v)
  | c, _, _ => c

/-- Lines 61-69 of the source (`getAtPath`): walk the path, returning
`undefined` as soon as the current value is nullish. -/
def getAtPath : JVal → List Seg → JVal
  | cur, [] => cur
  | cur, s :: rest => if isNullish cur then .undef else getAtPath (jsIndex cur s) rest

/-- The loop of lines 37-55 of the source, acting on the already copied
container `cur`: for every segment but the last, read the child, replace
a nullish child by a fresh `[]`/`{}` according to the next segment
(line 42), shallow-copy it (line 45) and descend; finally set the last
segment (line 55).  The two consecutive assignments to `cur[seg]` of the
source are collapsed into the single final one, which leaves the same
value at the key. -/
def setGo (cur : JVal) : List Seg → JVal → JVal
  | [], _ => cur
  | [last], v => jsSet cur last v
  | s :: rest, v =>
      let child := jsIndex cur s
      let filled :=
        if isNullish child then
          match rest.head? with
          | some n => if segIsNum n then JVal.arr [] [] else JVal.obj []
          | none => JVal.obj []
        else child
      jsSet cur s (setGo (shallowCopy filled) rest v)

/-- Lines 29-58 of the source (`setAtPath`): an empty path replaces the
whole document; otherwise the root is shallow-copied and the loop runs
on the copy. -/
def setAtPath (root : JVal) (path : List Seg) (value : JVal) : JVal :=
  match path with
  | [] => value
  | _ :: _ => setGo (shallowCopy root) path value

/-- Property-access in an `Except` monad: reading a property of a nullish
value throws a `TypeError` in JavaScript; on any other receiver the read
yields `jsIndex`. -/
def jsIndexE (cur : JVal) (s : Seg) : Except String JVal :=
  if isNullish cur then Except.error "TypeError: cannot read properties of null" else Except.ok (jsIndex cur s)

/-- Property-write in an `Except` monad: in strict mode, assigning a
property on a primitive receiver throws; on containers it yields
`jsSet`. -/
def jsSetE (cur : JVal) (s : Seg) (v : JVal) : Except String JVal :=
  match cur with
  | .arr _ _ => Except.ok (jsSet cur s v)
  | .obj _ => Except.ok (jsSet cur s v)
  | _ => Except.error "TypeError: cannot create property on primitive"

/-- The resolver `getAtPath` with throwing property accesses: the guard of line 65
returns `undefined` before a nullish value is ever dereferenced. -/
def getAtPathE : JVal → List Seg → Except String JVal
  | cur, [] => Except.ok cur
  | cur, s :: rest =>
      if isNullish cur then Except.ok .undef
      else
        match jsIndexE cur s with
        | Except.ok c => getAtPathE c rest
        | Except.error e => Except.error e

/-- The `setAtPath` loop with throwing property accesses and writes. -/
def setGoE (cur : JVal) : List Seg → JVal → Except String JVal
  | [], _ => Except.ok cur
  | [last], v => jsSetE cur last v
  | s :: rest, v =>
      match jsIndexE cur s with
      | Except.error e => Except.error e
      | Except.ok child =>
          let filled :=
            if isNullish child then
              match rest.head? with
              | some n => if segIsNum n then JVal.arr [] [] else JVal.obj []
              | none => JVal.obj []
            else child
          match setGoE (shallowCopy filled) rest v with
          | Except.error e => Except.error e
          | Except.ok r => jsSetE cur s r

/-- The writer `setAtPath` with throwing property accesses and writes. -/
def setAtPathE (root : JVal) (path : List Seg) (value : JVal) : Except String JVal :=
  match path with
  | [] => Except.ok value
  | _ :: _ => setGoE (shallowCopy root) path value

/-- The type tag of a node row (`NodeData["text"]` rows): a row is either
a primitive field or a collapsed nested object/array. -/
inductive RowType where
  | primitive
  | object
  | array
deriving DecidableEq, Repr

/-- One row of a node's flattened field list.  A row without a key
(e.g. an unkeyed array row) is modelled by the empty string, which is
exactly the set of falsy values of the source's `row.key` tests. -/
structure NodeRow where
  key : String
  type : RowType
  value : JVal

/-- The selected node: its path into the document and its row list.
The source defaults a missing `path`/`text` with `?? []` / `|| []`; the
model carries the defaulted lists. -/
structure NodeData where
  path : List Seg
  text : List NodeRow

/-- Lines 108-114 of the source: fold the rows into an object, keeping
only keyed rows whose type is not `object`/`array` (`acc[row.key] =
row.value`). -/
def rowsToObject (rows : List NodeRow) : List (String × JVal) :=
  rows.foldl
    (fun acc row =>
      if row.type ≠ RowType.array ∧ row.type ≠ RowType.object ∧ row.key ≠ "" then
        setKey acc row.key row.value
      else acc)
    []

/-- JS object spread-merge `{ ...a, ...b }`: `a`'s fields in order, each
field of `b` then assigned over the result. -/
def spread2 (a b : List (String × JVal)) : List (String × JVal) :=
  b.foldl (fun acc p => setKey acc p.1 p.2) a

/-- Embeds `Object.prototype.hasOwnProperty.call(fs, k)`. -/
def hasOwnProp (fs : List (String × JVal)) (k : String) : Bool :=
  fs.any (fun p => p.1 = k)

/-- Lines 100-116 of the source: resolve the path; if the current value
is a non-array object (truthy, `typeof === "object"`, not an array),
merge the updates into it; otherwise merge them into the object rebuilt
from the node's primitive keyed rows. -/
def buildReplacement (json : JVal) (path : List Seg) (rows : List NodeRow)
    (updates : List (String × JVal)) : List (String × JVal) :=
  match getAtPath json path with
  | .obj fs => spread2 fs updates
  | _ => spread2 (rowsToObject rows) updates

/-- Lines 118-127 of the source: the `updatedText` computation.  Each
keyed row whose key is an own property of the replacement and whose type
is not `object`/`array` gets the replacement's value; all other rows are
returned as they are. -/
def applyEditsToRows (rows : List NodeRow) (replacement : List (String × JVal)) :
    List NodeRow :=
  rows.map fun row =>
    if row.key = "" then row
    else if hasOwnProp replacement row.key then
      if row.type ≠ RowType.object ∧ row.type ≠ RowType.array then
        { row with value := (alookup replacement row.key).getD .undef }
      else row
    else row

/-- One escaped character of a JSON string literal. -/
def escChar (c : Char) : String :=
  if c = '\\' then "\\\\"
  else if c = '"' then "\\\""
  else if c = '\n' then "\\n"
  else if c = '\t' then "\\t"
  else if c = '\r' then "\\r"
  else String.mk [c]

/-- A JSON string literal. -/
def jsStrLit (s : String) : String :=
  "\"" ++ String.join (s.toList.map escChar) ++ "\""

/-- Tests exactly for `undefined`. -/
def isUndef : JVal → Bool
  | .undef => true
  | _ => false

/-- Embeds `JSON.stringify(v, null, 2)` at indentation `ind`: arrays serialize
their elements only (non-index properties are ignored), object fields
with `undefined` values are dropped, and an `undefined` array element
serializes as `null`. -/
def stringifyV (ind : String) (v : JVal) : String :=
  match v with
  | .null => "null"
  | .undef => "null"
  | .bool b => if b then "true" else "false"
  | .num n => toString n
  | .str s => jsStrLit s
  | .arr es _ =>
      if es.isEmpty then "[]"
      else
        let inner := es.attach.map fun e => ind ++ "  " ++ stringifyV (ind ++ "  ") e.1
        "[\n" ++ String.intercalate ",\n" inner ++ "\n" ++ ind ++ "]"
  | .obj fs =>
      let kept := fs.filter fun p => !isUndef p.2
      if kept.isEmpty then "\x7b\x7d"
      else
        let inner := kept.attach.map fun p =>
          ind ++ "  " ++ jsStrLit p.1.1 ++ ": " ++ stringifyV (ind ++ "  ") p.1.2
        "\x7b\n" ++ String.intercalate ",\n" inner ++ "\n" ++ ind ++ "\x7d"
termination_by sizeOf v
decreasing_by
  · have h1 := List.sizeOf_lt_of_mem e.2
    simp only [JVal.arr.sizeOf_spec]
    omega
  · have h1 := List.sizeOf_lt_of_mem (List.mem_of_mem_filter p.2)
    have h2 : sizeOf p.1.2 < sizeOf p.1 := by
      cases p.1 with
      | mk a b => simp only [Prod.mk.sizeOf_spec]; omega
    simp only [JVal.obj.sizeOf_spec]
    omega

/-- Embeds `JSON.stringify(updatedJson, null, 2)` (line 135 of the source). -/
def stringify2 (v : JVal) : String :=
  stringifyV "" v

/-- The global state touched by the save handler: the persisted document
text (`useFile`), the selected node (`useGraph`), and the two modal
visibility flags set at lines 137-138. -/
structure SessionState where
  contents : String
  selectedNode : Option NodeData
  editModalOpen : Bool
  nodeModalOpen : Bool

/-- The externally observable calls the save handler makes, in order.
`setContents` records the text passed to persistence (the call is made
whether or not persistence then succeeds). -/
inductive SaveEvent where
  | setSelectedNode (n : NodeData)
  | setContents (s : String)
  | setVisible (modal : String) (visible : Bool)

/-- Lines 87-142 of the source (`save`), as a state transformer that also
returns the trace of external calls.  `parse` stands for `JSON.parse`
(`none` models a thrown `SyntaxError`); `persistOk` tells whether the
external `setContents` call succeeds; `name`/`color` are the two text
inputs.  A missing node returns immediately; a parse failure is caught
before any state mutation; a persistence failure is caught after the
node update but before the contents and visibility updates. -/
def save (parse : String → Option JVal) (persistOk : Bool) (name color : String)
    (st : SessionState) : SessionState × List SaveEvent :=
  match st.selectedNode with
  | none => (st, [])
  | some node =>
      match parse st.contents with
      | none => (st, [])
      | some json =>
          let path := node.path
          let updates : List (String × JVal) := [("name", .str name), ("color", .str color)]
          let replacement := buildReplacement json path node.text updates
          let updatedText := applyEditsToRows node.text replacement
          let node' : NodeData := { node with text := updatedText }
          let updatedJson := setAtPath json path (.obj replacement)
          let newText := stringify2 updatedJson
          if persistOk then
            ({ st with
                selectedNode := some node'
                contents := newText
                editModalOpen := false
                nodeModalOpen := true },
             [SaveEvent.setSelectedNode node', SaveEvent.setContents newText,
              SaveEvent.setVisible "NodeEditModal" false, SaveEvent.setVisible "NodeModal" true])
          else
            ({ st with selectedNode := some node' },
             [SaveEvent.setSelectedNode node', SaveEvent.setContents newText])

/-- Primitive JavaScript values (no identity). -/
inductive HPrim where
  | hnull
  | hundef
  | hbool (b : Bool)
  | hnum (n : Int)
  | hstr (s : String)
deriving DecidableEq, Repr

/-- A value: a primitive or a reference to a heap cell. -/
inductive HVal where
  | prim (p : HPrim)
  | ref (r : Nat)
deriving DecidableEq, Repr

/-- A container cell: an array (elements plus non-index string
properties) or an object. -/
inductive HCell where
  | harr (elems : List HVal) (props : List (String × HVal))
  | hobj (fields : List (String × HVal))
deriving DecidableEq, Repr

/-- Address lookup: first binding wins, so consing a binding models a
mutation of that address. -/
def hfind : List (Nat × HCell) → Nat → Option HCell
  | [], _ => none
  | (r, c) :: rest, key => if r = key then some c else hfind rest key

/-- The heap: an allocation frontier and the cell bindings. -/
structure Heap where
  next : Nat
  mem : List (Nat × HCell)
deriving Repr

/-- Cell at address `r`. -/
def Heap.find (h : Heap) (r : Nat) : Option HCell :=
  hfind h.mem r

/-- Allocate a fresh cell, returning its address. -/
def Heap.alloc (h : Heap) (c : HCell) : Heap × Nat :=
  ({ next := h.next + 1, mem := (h.next, c) :: h.mem }, h.next)

/-- Overwrite the cell at `r` (mutation). -/
def Heap.put (h : Heap) (r : Nat) (c : HCell) : Heap :=
  { h with mem := (r, c) :: h.mem }

/-- Loose equality `x == null` on heap values. -/
def isNullishH : HVal → Bool
  | .prim .hnull => true
  | .prim .hundef => true
  | _ => false

/-- Property read on a container cell (same key semantics as
`jsIndex`). -/
def cellGet : HCell → Seg → HVal
  | .harr es ps, s =>
      match segIdx? s with
      | some i => es.getD i (.prim .hundef)
      | none => (alookup ps (segStr s)).getD (.prim .hundef)
  | .hobj fs, s => (alookup fs (segStr s)).getD (.prim .hundef)

/-- Property write on a container cell (same key semantics as
`jsSet`). -/
def cellSet : HCell → Seg → HVal → HCell
  | .harr es ps, s, v =>
      match segIdx? s with
      | some i => .harr (listSetPad es i v (.prim .hundef)) ps
      | none => .harr es (setKey ps (segStr s) v)
  | .hobj fs, s, v => .hobj (setKey fs (segStr s) v)

/-- Property read on a primitive (string character access; other
primitives have no own properties). -/
def primIndex : HPrim → Seg → HVal
  | .hstr t, s =>
      match segIdx? s with
      | some i =>
          match t.toList.get? i with
          | some c => .prim (.hstr (String.mk [c]))
          | none => .prim .hundef
      | none => .prim .hundef
  | _, _ => (.prim .hundef)

/-- The character-indexed fields of a spread string, as heap values. -/
def charFieldsH (s : String) : List (String × HVal) :=
  s.toList.enum.map fun p => (natKey p.1, HVal.prim (.hstr (String.mk [p.2])))

/-- The content of the shallow copy of `v` (line 34 / line 45):
`slice()` for arrays (elements shared, properties dropped), field spread
for objects (values shared), `{...primitive}` for primitives. -/
def copyOf (h : Heap) (v : HVal) : HCell :=
  match v with
  | .ref r =>
      match h.find r with
      | some (.harr es _) => .harr es []
      | some (.hobj fs) => .hobj fs
      | none => .hobj []
  | .prim (.hstr t) => .hobj (charFieldsH t)
  | .prim _ => .hobj []

/-- The empty container created at a missing intermediate step
(line 42): an array when the next segment is a number, else an
object. -/
def emptyForH (s : Seg) : HCell :=
  if segIsNum s then .harr [] [] else .hobj []

/-- The loop of lines 37-55 over the heap, mutating the fresh container
cell `c`: read the child, allocate an empty container if it is nullish
and assign it (line 42), allocate the shallow copy of the (possibly just
created) child and assign it (lines 45-47), descend into the copy;
finally write the last segment into the current cell (line 55). -/
def setGoH (h : Heap) (c : Nat) : List Seg → HVal → Heap
  | [], _ => h
  | [last], v => h.put c (cellSet ((h.find c).getD (.hobj [])) last v)
  | s :: rest, v =>
      let cell0 := (h.find c).getD (.hobj [])
      let child0 := cellGet cell0 s
      let st1 :=
        if isNullishH child0 then
          let al := h.alloc (match rest.head? with | some n => emptyForH n | none => .hobj [])
          (al.1.put c (cellSet cell0 s (.ref al.2)), HVal.ref al.2)
        else (h, child0)
      let al2 := st1.1.alloc (copyOf st1.1 st1.2)
      let cell1 := (al2.1.find c).getD (.hobj [])
      let h3 := al2.1.put c (cellSet cell1 s (.ref al2.2))
      setGoH h3 al2.2 rest v

/-- Lines 29-58 over the heap: allocate the shallow copy of the root and
run the loop on it; the new root is the copy's address.  An empty path
replaces the document by `value` without touching the heap. -/
def setAtPathH (h : Heap) (root : HVal) (path : List Seg) (value : HVal) :
    Heap × HVal :=
  match path with
  | [] => (h, value)
  | _ :: _ =>
      let al := h.alloc (copyOf h root)
      (setGoH al.1 al.2 path value, .ref al.2)

/-- Property read `cur[seg]` over the heap. -/
def hIndex (h : Heap) (v : HVal) (s : Seg) : HVal :=
  match v with
  | .ref r =>
      match h.find r with
      | some c => cellGet c s
      | none => .prim .hundef
  | .prim p => primIndex p s

/-- Lines 61-69 (`getAtPath`) over the heap; equality of its results is
referential identity for containers. -/
def resolveH (h : Heap) : HVal → List Seg → HVal
  | cur, [] => cur
  | cur, s :: rest =>
      if isNullishH cur then .prim .hundef else resolveH h (hIndex h cur s) rest

/-- The document of the end-to-end scenario. -/
def c1Doc : JVal :=
  .obj [("user", .obj [("name", .str "Bob"), ("tags", .arr [.str "x"] [])])]

/-- The selected node of the end-to-end scenario: path `["user"]`, one
primitive `name` row and one `array` `tags` row. -/
def c1Node : NodeData :=
  ⟨[.str "user"],
   [⟨"name", .primitive, .str "Bob"⟩, ⟨"tags", .array, .undef⟩]⟩

/-- The expected resulting document of the end-to-end scenario. -/
def c1Expected : JVal :=
  .obj [("user", .obj [("name", .str "Alice"), ("tags", .arr [.str "x"] []), ("color", .str "red")])]

/-- The key sequence of a field list. -/
def keysOf {α : Type} (l : List (String × α)) : List String :=
  l.map Prod.fst

/-- Numeric payload of a value (used to discriminate concrete outcomes). -/
def numOfJ : JVal → Int
  | .num n => n
  | _ => 0

/-- Holds on arrays and objects (the values `Array.isArray`/spread
copying can produce). -/
def isContainer : JVal → Bool
  | .arr _ _ => true
  | .obj _ => true
  | _ => false

/-- The empty container created at a missing step (line 42): an array
when the coming segment is a number, an object otherwise. -/
def emptyFor (s : Seg) : JVal :=
  if segIsNum s then .arr [] [] else .obj []

/-- The chain of fresh containers `setAtPath` builds below the first
missing step: each segment contributes the empty container selected by
that segment's kind, with the next link written at the segment, and the
final value at the end. -/
def chainVal : List Seg → JVal → JVal
  | [], v => v
  | s :: rest, v => jsSet (emptyFor s) s (chainVal rest v)

/-- Holds on objects and on arrays without non-index properties (JSON
data-model arrays). -/
def isPureContainer : JVal → Bool
  | .obj _ => true
  | .arr _ [] => true
  | _ => false

/-- Holds on the non-null primitives (number, boolean, string). -/
def isPrimNonNull : JVal → Bool
  | .num _ => true
  | .bool _ => true
  | .str _ => true
  | _ => false

/-- Constructor tag (used to discriminate concrete values). -/
def tagOfJ : JVal → Nat
  | .null => 0
  | .undef => 1
  | .bool _ => 2
  | .num _ => 3
  | .str _ => 4
  | .arr _ _ => 5
  | .obj _ => 6

/-- Holds when every reference inside the value is below `n`. -/
def HVal.belowB (n : Nat) : HVal → Bool
  | .ref r => decide (r < n)
  | .prim _ => true

/-- Holds when every reference inside the cell is below `n`. -/
def HCell.belowB (n : Nat) : HCell → Bool
  | .harr es ps => es.all (HVal.belowB n) && ps.all (fun p => HVal.belowB n p.2)
  | .hobj fs => fs.all (fun p => HVal.belowB n p.2)

/-- A closed heap: every binding lives below the allocation frontier and
references only addresses below it. -/
def Heap.closedB (h : Heap) : Bool :=
  h.mem.all (fun rc => decide (rc.1 < h.next) && HCell.belowB h.next rc.2)

/-- A JSON-shaped heap: its array cells carry no non-index properties. -/
def Heap.jsonArraysB (h : Heap) : Bool :=
  h.mem.all (fun rc =>
    match rc.2 with
    | .harr _ ps => ps.isEmpty
    | .hobj _ => true)

/-! ### Lemmas and claim theorems -/

/-- C5: for every save where the current document text does not parse as
JSON, the save aborts before any mutation: the returned state equals the
input state (document text, selected node rows, modal visibility all
unchanged) and no external call was made. -/
theorem save_parse_error_no_mutation (parse : String → Option JVal) (persistOk : Bool)
    (name color : String) (st : SessionState) (h : parse st.contents = none) :
    save parse persistOk name color st = (st, []) := by
  unfold save
  cases hn : st.selectedNode with
  | none => rfl
  | some node => rw [h]

theorem save_parse_error_no_mutation_witness :
    save (fun _ => none) true "Alice" "red"
        ⟨"not json", some ⟨[], []⟩, true, false⟩ =
      (⟨"not json", some ⟨[], []⟩, true, false⟩, []) :=
  save_parse_error_no_mutation (fun _ => none) true "Alice" "red" _ rfl

/-- C9: in every save that reaches persistence, the node-update call is
emitted strictly before the persistence call (the trace starts with
`setSelectedNode` then `setContents`); and when persistence fails, no
further state write occurs: the final state keeps the updated rows while
the stored text and the modal flags are those of the input state. -/
theorem save_persist_order_and_no_rollback (parse : String → Option JVal)
    (persistOk : Bool) (name color : String) (st : SessionState) (node : NodeData)
    (json : JVal) (hn : st.selectedNode = some node) (hp : parse st.contents = some json) :
    (save parse persistOk name color st).2.take 2 =
        [SaveEvent.setSelectedNode
          { node with
              text := applyEditsToRows node.text
                (buildReplacement json node.path node.text
                  [("name", .str name), ("color", .str color)]) },
         SaveEvent.setContents
          (stringify2 (setAtPath json node.path
            (.obj (buildReplacement json node.path node.text
              [("name", .str name), ("color", .str color)]))))] ∧
      (persistOk = false →
        save parse persistOk name color st =
          ({ st with
              selectedNode := some
                { node with
                    text := applyEditsToRows node.text
                      (buildReplacement json node.path node.text
                        [("name", .str name), ("color", .str color)]) } },
           [SaveEvent.setSelectedNode
              { node with
                  text := applyEditsToRows node.text
                    (buildReplacement json node.path node.text
                      [("name", .str name), ("color", .str color)]) },
            SaveEvent.setContents
              (stringify2 (setAtPath json node.path
                (.obj (buildReplacement json node.path node.text
                  [("name", .str name), ("color", .str color)]))))])) := by
  unfold save
  rw [hn, hp]
  cases persistOk with
  | true => exact ⟨rfl, fun h => by cases h⟩
  | false => exact ⟨rfl, fun _ => rfl⟩

theorem save_persist_order_and_no_rollback_witness :
    (save (fun _ => some (JVal.obj [])) false "Alice" "red"
        ⟨"", some ⟨[], []⟩, true, false⟩).2.take 2 =
        [SaveEvent.setSelectedNode
          { path := [], text := applyEditsToRows []
              (buildReplacement (JVal.obj []) [] []
                [("name", .str "Alice"), ("color", .str "red")]) },
         SaveEvent.setContents
          (stringify2 (setAtPath (JVal.obj []) []
            (.obj (buildReplacement (JVal.obj []) [] []
              [("name", .str "Alice"), ("color", .str "red")]))))] :=
  (save_persist_order_and_no_rollback (fun _ => some (JVal.obj [])) false "Alice" "red"
    ⟨"", some ⟨[], []⟩, true, false⟩ ⟨[], []⟩ (JVal.obj []) rfl rfl).1

/-- C1: end-to-end save scenario: on the document
`{"user":{"name":"Bob","tags":["x"]}}` with selected node path
`["user"]` and the given rows, saving the inputs `name := "Alice"`,
`color := "red"` persists exactly the document
`{"user":{"name":"Alice","tags":["x"],"color":"red"}}` (name edited,
tags preserved, color appended). -/
theorem save_end_to_end (parse : String → Option JVal) (txt : String)
    (e n : Bool) (h : parse txt = some c1Doc) :
    (save parse true "Alice" "red" ⟨txt, some c1Node, e, n⟩).1.contents =
      stringify2 c1Expected := by
  unfold save
  simp only [show (SessionState.mk txt (some c1Node) e n).selectedNode = some c1Node from rfl,
    show (SessionState.mk txt (some c1Node) e n).contents = txt from rfl, h]
  rfl

theorem save_end_to_end_witness :
    (save (fun _ => some c1Doc) true "Alice" "red"
        ⟨"", some c1Node, true, false⟩).1.contents = stringify2 c1Expected :=
  save_end_to_end (fun _ => some c1Doc) "" true false rfl

/-- C6 (resolve totality): `getAtPath` never throws — the embedding in
which dereferencing a nullish value raises always returns `ok`, with the
value of the total function; it returns the `undefined` sentinel as soon
as a value reached along the path is nullish; and when no intermediate
value is nullish it returns the plain left fold of container indexing
over the segments. -/
theorem getAtPath_total_characterized :
    (∀ root path, getAtPathE root path = Except.ok (getAtPath root path)) ∧
    (∀ root path i, i < path.length → isNullish (getAtPath root (path.take i)) = true →
        getAtPath root path = .undef) ∧
    (∀ root path, (∀ i, i < path.length → isNullish (getAtPath root (path.take i)) = false) →
        getAtPath root path = path.foldl jsIndex root) := by
  refine ⟨?_, ?_, ?_⟩
  · intro root path
    induction path generalizing root with
    | nil => rfl
    | cons s rest ih =>
        by_cases h : isNullish root = true
        · simp [getAtPathE, getAtPath, h]
        · simp only [Bool.not_eq_true] at h
          simp [getAtPathE, getAtPath, jsIndexE, h, ih]
  · intro root path
    induction path generalizing root with
    | nil => intro i hi; simp at hi
    | cons s rest ih =>
        intro i hi hnull
        by_cases h : isNullish root = true
        · simp [getAtPath, h]
        · simp only [Bool.not_eq_true] at h
          cases i with
          | zero =>
              simp only [List.take_zero, getAtPath] at hnull
              rw [hnull] at h
              cases h
          | succ k =>
              simp only [List.take_succ_cons] at hnull
              simp only [getAtPath, h] at hnull ⊢
              simp only [Bool.false_eq_true, if_false] at hnull ⊢
              exact ih (jsIndex root s) k (by simpa using hi) hnull
  · intro root path
    induction path generalizing root with
    | nil => intro _; rfl
    | cons s rest ih =>
        intro hall
        have h0 : isNullish root = false := by
          have := hall 0 (by simp)
          simpa [getAtPath] using this
        simp only [getAtPath, h0, Bool.false_eq_true, if_false, List.foldl_cons]
        refine ih (jsIndex root s) ?_
        intro i hi
        have := hall (i + 1) (by simpa using Nat.succ_lt_succ hi)
        simpa [List.take_succ_cons, getAtPath, h0] using this

theorem getAtPath_total_characterized_witness :
    getAtPathE (JVal.obj [("a", JVal.null)]) [Seg.str "a", Seg.str "b"] =
        Except.ok (getAtPath (JVal.obj [("a", JVal.null)]) [Seg.str "a", Seg.str "b"]) ∧
      getAtPath (JVal.obj [("a", JVal.null)]) [Seg.str "a", Seg.str "b"] = JVal.undef ∧
      getAtPath (JVal.obj [("a", JVal.num 1)]) [Seg.str "a"] =
        [Seg.str "a"].foldl jsIndex (JVal.obj [("a", JVal.num 1)]) :=
  ⟨getAtPath_total_characterized.1 _ _,
   getAtPath_total_characterized.2.1 _ _ 1 (by decide) rfl,
   getAtPath_total_characterized.2.2 _ _
     (fun i hi => by
       have h0 : i = 0 := Nat.lt_one_iff.mp hi
       subst h0
       rfl)⟩

theorem alookup_setKey_self {α : Type} (l : List (String × α)) (k : String) (v : α) :
    alookup (setKey l k v) k = some v := by
  induction l with
  | nil => simp [setKey, alookup]
  | cons p rest ih =>
      obtain ⟨k', v'⟩ := p
      by_cases h : k' = k
      · subst h
        simp [setKey, alookup]
      · simp [setKey, h, alookup, ih]

theorem alookup_setKey_ne {α : Type} (l : List (String × α)) (k k' : String) (v : α)
    (h : k' ≠ k) : alookup (setKey l k v) k' = alookup l k' := by
  induction l with
  | nil =>
      simp only [setKey, alookup]
      rw [if_neg (fun hh => h hh.symm)]
  | cons p rest ih =>
      obtain ⟨k0, v0⟩ := p
      by_cases h0 : k0 = k
      · subst h0
        simp [setKey, alookup, Ne.symm h]
      · simp [setKey, h0, alookup, ih]

theorem keysOf_setKey {α : Type} (l : List (String × α)) (k : String) (v : α) :
    keysOf (setKey l k v) = if k ∈ keysOf l then keysOf l else keysOf l ++ [k] := by
  induction l with
  | nil => simp [setKey, keysOf]
  | cons p rest ih =>
      obtain ⟨k0, v0⟩ := p
      by_cases h0 : k0 = k
      · subst h0
        simp [setKey, keysOf]
      · have hs : setKey ((k0, v0) :: rest) k v = (k0, v0) :: setKey rest k v := by
          simp [setKey, h0]
        rw [hs]
        show k0 :: keysOf (setKey rest k v) =
          if k ∈ k0 :: keysOf rest then k0 :: keysOf rest else (k0 :: keysOf rest) ++ [k]
        rw [ih]
        by_cases hm : k ∈ keysOf rest
        · rw [if_pos hm, if_pos (List.mem_cons_of_mem _ hm)]
        · rw [if_neg hm, if_neg (by
            simp only [List.mem_cons]
            rintro (hh | hh)
            · exact h0 hh.symm
            · exact hm hh)]
          rfl

theorem spread2_cons (fs : List (String × JVal)) (k : String) (v : JVal)
    (rest : List (String × JVal)) :
    spread2 fs ((k, v) :: rest) = spread2 (setKey fs k v) rest := by
  simp [spread2]

theorem alookup_spread2_not_mem (fs upd : List (String × JVal)) (k : String)
    (h : k ∉ keysOf upd) : alookup (spread2 fs upd) k = alookup fs k := by
  induction upd generalizing fs with
  | nil => simp [spread2]
  | cons p rest ih =>
      obtain ⟨k0, v0⟩ := p
      simp only [keysOf, List.map_cons, List.mem_cons] at h
      push_neg at h
      rw [spread2_cons, ih _ (by simpa [keysOf] using h.2)]
      exact alookup_setKey_ne fs k0 k v0 h.1

theorem alookup_spread2_mem (fs upd : List (String × JVal)) (k : String)
    (hnd : (keysOf upd).Nodup) (h : k ∈ keysOf upd) :
    alookup (spread2 fs upd) k = alookup upd k := by
  induction upd generalizing fs with
  | nil => simp [keysOf] at h
  | cons p rest ih =>
      obtain ⟨k0, v0⟩ := p
      simp only [keysOf, List.map_cons, List.nodup_cons] at hnd
      by_cases h0 : k = k0
      · subst h0
        rw [spread2_cons,
          alookup_spread2_not_mem (setKey fs k v0) rest k (by simpa [keysOf] using hnd.1)]
        rw [alookup_setKey_self]
        simp [alookup]
      · have hk : k ∈ keysOf rest := by
          simp only [keysOf, List.map_cons, List.mem_cons] at h
          tauto
        rw [spread2_cons, ih (setKey fs k0 v0) (by simpa [keysOf] using hnd.2) hk]
        simp only [alookup]
        rw [if_neg (fun hh => h0 hh.symm)]

theorem keysOf_spread2 (fs upd : List (String × JVal)) (hnd : (keysOf upd).Nodup) :
    keysOf (spread2 fs upd) =
      keysOf fs ++ (keysOf upd).filter (fun k => decide (k ∉ keysOf fs)) := by
  induction upd generalizing fs with
  | nil => simp [spread2, keysOf]
  | cons p rest ih =>
      obtain ⟨k0, v0⟩ := p
      simp only [keysOf, List.map_cons, List.nodup_cons] at hnd
      rw [spread2_cons, ih (setKey fs k0 v0) (by simpa [keysOf] using hnd.2)]
      rw [keysOf_setKey]
      by_cases h0 : k0 ∈ keysOf fs
      · rw [if_pos h0]
        have hc : List.filter (fun k => decide (k ∉ keysOf fs)) (k0 :: keysOf rest) =
            List.filter (fun k => decide (k ∉ keysOf fs)) (keysOf rest) := by
          simp [List.filter_cons, h0]
        show keysOf fs ++ _ = keysOf fs ++ List.filter _ (k0 :: keysOf rest)
        rw [hc]
      · rw [if_neg h0]
        have hfe : (keysOf rest).filter (fun k => decide (k ∉ keysOf fs ++ [k0])) =
            (keysOf rest).filter (fun k => decide (k ∉ keysOf fs)) := by
          apply List.filter_congr
          intro x hx
          have hn1 : k0 ∉ keysOf rest := by simpa [keysOf] using hnd.1
          have hx0 : x ≠ k0 := by
            intro hh
            subst hh
            exact hn1 hx
          simp [hx0]
        have hc : List.filter (fun k => decide (k ∉ keysOf fs)) (k0 :: keysOf rest) =
            k0 :: List.filter (fun k => decide (k ∉ keysOf fs)) (keysOf rest) := by
          simp [List.filter_cons, h0]
        show _ = keysOf fs ++ List.filter _ (k0 :: keysOf rest)
        rw [hfe, hc, List.append_assoc]
        rfl

/-- C2 (patch builder branch): when the path resolves to a non-array
object, the replacement is the spread-merge of that object with the
edits — edits override same-named keys, all other fields keep their
values, and the key order is the current object's keys (edited in
place) followed by exactly the new edit keys; in every other case
(array, primitive, or not found at the path) the replacement merges the
object rebuilt from the node's primitive keyed rows with the edits, so
an array at the path is never merged into. -/
theorem buildReplacement_characterized (json : JVal) (path : List Seg)
    (rows : List NodeRow) (upd : List (String × JVal))
    (hnd : (keysOf upd).Nodup) :
    (∀ fs, getAtPath json path = .obj fs →
        buildReplacement json path rows upd = spread2 fs upd ∧
        keysOf (spread2 fs upd) =
          keysOf fs ++ (keysOf upd).filter (fun k => decide (k ∉ keysOf fs)) ∧
        (∀ k, k ∈ keysOf upd → alookup (spread2 fs upd) k = alookup upd k) ∧
        (∀ k, k ∉ keysOf upd → alookup (spread2 fs upd) k = alookup fs k)) ∧
      ((∀ fs, getAtPath json path ≠ .obj fs) →
        buildReplacement json path rows upd = spread2 (rowsToObject rows) upd) := by
  constructor
  · intro fs hfs
    refine ⟨?_, keysOf_spread2 fs upd hnd, ?_, ?_⟩
    · unfold buildReplacement
      rw [hfs]
    · intro k hk
      exact alookup_spread2_mem fs upd k hnd hk
    · intro k hk
      exact alookup_spread2_not_mem fs upd k hk
  · intro hne
    unfold buildReplacement
    cases hg : getAtPath json path with
    | obj fs => exact absurd hg (hne fs)
    | null => rfl
    | undef => rfl
    | bool b => rfl
    | num n => rfl
    | str s => rfl
    | arr es ps => rfl

theorem buildReplacement_characterized_witness :
    buildReplacement (JVal.obj [("a", JVal.num 1), ("b", JVal.num 2)]) [] []
        [("a", JVal.num 9)] =
      spread2 [("a", JVal.num 1), ("b", JVal.num 2)] [("a", JVal.num 9)] ∧
    buildReplacement (JVal.arr [JVal.num 1] []) [] [⟨"x", .primitive, JVal.num 5⟩]
        [("a", JVal.num 9)] =
      spread2 (rowsToObject [⟨"x", .primitive, JVal.num 5⟩]) [("a", JVal.num 9)] :=
  ⟨((buildReplacement_characterized (JVal.obj [("a", JVal.num 1), ("b", JVal.num 2)]) [] []
      [("a", JVal.num 9)] (by simp [keysOf])).1 _ rfl).1,
   (buildReplacement_characterized (JVal.arr [JVal.num 1] []) [] [⟨"x", .primitive, JVal.num 5⟩]
      [("a", JVal.num 9)] (by simp [keysOf])).2 (fun fs h => by simp [getAtPath] at h)⟩

/-- C4 counterexample: the row update is keyed on the *replacement*
object, not on the edit set.  With document `{"age": 42}` at path `[]`,
rows `[{key:"age", type:primitive, value:7}]` and edit set
`{name:"Alice", color:"red"}`, the key `"age"` is not in the edit set,
yet the computation rewrites the row's value to the replacement's `42`
instead of passing the row through unchanged with value `7`. -/
theorem applyEditsToRows_edit_set_counterexample :
    ((applyEditsToRows [⟨"age", RowType.primitive, JVal.num 7⟩]
        (buildReplacement (JVal.obj [("age", JVal.num 42)]) []
          [⟨"age", RowType.primitive, JVal.num 7⟩]
          [("name", JVal.str "Alice"), ("color", JVal.str "red")])).map
        (fun r => numOfJ r.value) = [(42 : Int)]) ∧ (42 : Int) ≠ 7 := by
  constructor
  · rfl
  · decide

/-- C4 (amended): the row update is keyed on the replacement object:
each keyed row whose key is an own property of the replacement and whose
type is not `object`/`array` becomes a new row carrying the
replacement's value for that key; rows of type `object`/`array`, rows
without a key, and rows whose key is not an own property of the
replacement are passed through unchanged; the result has the same
length as the input (the input itself is not mutated — the embedding is
pure). -/
theorem applyEditsToRows_characterized (rows : List NodeRow)
    (repl : List (String × JVal)) :
    (applyEditsToRows rows repl).length = rows.length ∧
    ∀ i row, rows.get? i = some row →
      ((row.key ≠ "" → hasOwnProp repl row.key = true →
          row.type ≠ RowType.object → row.type ≠ RowType.array →
          (applyEditsToRows rows repl).get? i =
            some { row with value := (alookup repl row.key).getD .undef }) ∧
        (row.key = "" ∨ hasOwnProp repl row.key = false ∨
            row.type = RowType.object ∨ row.type = RowType.array →
          (applyEditsToRows rows repl).get? i = some row)) := by
  constructor
  · simp [applyEditsToRows]
  · intro i row hrow
    constructor
    · intro hkey hown hto hta
      simp only [applyEditsToRows, List.get?_map, hrow, Option.map_some']
      rw [if_neg hkey, if_pos hown, if_pos ⟨hto, hta⟩]
    · intro hcase
      simp only [applyEditsToRows, List.get?_map, hrow, Option.map_some']
      rcases hcase with hk | ho | ht | ht
      · rw [if_pos hk]
      · by_cases hk : row.key = ""
        · rw [if_pos hk]
        · rw [if_neg hk, if_neg (by simp [ho])]
      · by_cases hk : row.key = ""
        · rw [if_pos hk]
        · rw [if_neg hk]
          by_cases ho : hasOwnProp repl row.key = true
          · rw [if_pos ho, if_neg (by simp [ht])]
          · rw [if_neg ho]
      · by_cases hk : row.key = ""
        · rw [if_pos hk]
        · rw [if_neg hk]
          by_cases ho : hasOwnProp repl row.key = true
          · rw [if_pos ho, if_neg (by simp [ht])]
          · rw [if_neg ho]

theorem applyEditsToRows_characterized_witness :
    (applyEditsToRows [⟨"name", RowType.primitive, JVal.str "Bob"⟩]
        [("name", JVal.str "Alice")]).get? 0 =
      some { key := "name", type := RowType.primitive, value := JVal.str "Alice" } :=
  ((applyEditsToRows_characterized [⟨"name", RowType.primitive, JVal.str "Bob"⟩]
      [("name", JVal.str "Alice")]).2 0 _ rfl).1 (by decide) rfl
    (by decide) (by decide)

theorem natDigitsAux_congr : ∀ n f1 f2, n < f1 → n < f2 →
    natDigitsAux f1 n = natDigitsAux f2 n := by
  intro n
  induction n using Nat.strong_induction_on with
  | _ n ih =>
      intro f1 f2 h1 h2
      match f1, f2 with
      | a + 1, b + 1 =>
          by_cases h10 : n < 10
          · simp [natDigitsAux, h10]
          · have hdiv : n / 10 < n := Nat.div_lt_self (by omega) (by omega)
            simp only [natDigitsAux, h10, if_false]
            rw [ih (n / 10) hdiv a b (by omega) (by omega)]

theorem natDigits_eq (n : Nat) :
    natDigits n =
      if n < 10 then [digitChar n]
      else natDigits (n / 10) ++ [digitChar (n % 10)] := by
  by_cases h10 : n < 10
  · simp [natDigits, natDigitsAux, h10]
  · have hdiv : n / 10 < n := Nat.div_lt_self (by omega) (by omega)
    have step : natDigits n = natDigitsAux n (n / 10) ++ [digitChar (n % 10)] := by
      show natDigitsAux (n + 1) n = _
      simp only [natDigitsAux, h10, if_false]
    rw [step, if_neg h10, natDigitsAux_congr (n / 10) n (n / 10 + 1) hdiv (by omega)]
    rfl

theorem digit?_digitChar (d : Nat) (h : d < 10) : digit? (digitChar d) = some d := by
  interval_cases d <;> decide

theorem digitChar_ne_zero_char (d : Nat) (h : d < 10) (h0 : d ≠ 0) :
    digitChar d ≠ '0' := by
  interval_cases d <;> simp_all <;> decide

theorem digit?_eq_some (c : Char) (d : Nat) (h : digit? c = some d) :
    d < 10 ∧ c = digitChar d := by
  unfold digit? at h
  split at h
  · rename_i hc
    injection h with h
    subst h
    refine ⟨by omega, ?_⟩
    unfold digitChar
    have h48 : 48 + (c.toNat - 48) = c.toNat := by omega
    rw [h48]
    exact (Char.ofNat_toNat c).symm
  · cases h

theorem natDigits_ne_nil (n : Nat) : natDigits n ≠ [] := by
  rw [natDigits_eq]
  by_cases h10 : n < 10
  · simp [h10]
  · simp [h10]

theorem natDigits_head_ne_zero : ∀ n, n ≠ 0 → (natDigits n).head? ≠ some '0' := by
  intro n
  induction n using Nat.strong_induction_on with
  | _ n ih =>
      intro h0
      rw [natDigits_eq]
      by_cases h10 : n < 10
      · simp only [h10, if_true, List.head?_cons]
        intro hc
        exact digitChar_ne_zero_char n h10 h0 (by injection hc)
      · simp only [h10, if_false]
        rw [List.head?_append_of_ne_nil _ (natDigits_ne_nil (n / 10))]
        exact ih (n / 10) (Nat.div_lt_self (by omega) (by omega)) (by omega)

theorem isCanonDigits_natDigits (n : Nat) : isCanonDigits (natDigits n) = true := by
  by_cases h0 : n = 0
  · subst h0
    decide
  · cases hnd : natDigits n with
    | nil => exact absurd hnd (natDigits_ne_nil n)
    | cons c rest =>
        have hc : c ≠ '0' := by
          have := natDigits_head_ne_zero n h0
          rw [hnd] at this
          simp only [List.head?_cons] at this
          intro hh
          exact this (by rw [hh])
        simp [isCanonDigits, hc]

theorem natParseGo_append (xs ys : List Char) (acc : Nat) :
    natParseGo (xs ++ ys) acc =
      match natParseGo xs acc with
      | some a => natParseGo ys a
      | none => none := by
  induction xs generalizing acc with
  | nil => simp [natParseGo]
  | cons c cs ih =>
      simp only [List.cons_append, natParseGo]
      cases digit? c with
      | some d => exact ih (acc * 10 + d)
      | none => rfl

theorem natParseGo_natDigits : ∀ n acc,
    natParseGo (natDigits n) acc = some (acc * 10 ^ (natDigits n).length + n) := by
  intro n
  induction n using Nat.strong_induction_on with
  | _ n ih =>
      intro acc
      rw [natDigits_eq]
      by_cases h10 : n < 10
      · simp [h10, natParseGo, digit?_digitChar n h10]
      · have hdiv : n / 10 < n := Nat.div_lt_self (by omega) (by omega)
        simp only [h10, if_false]
        rw [natParseGo_append]
        rw [ih (n / 10) hdiv acc]
        simp only [natParseGo, digit?_digitChar (n % 10) (by omega)]
        congr 1
        rw [List.length_append]
        simp only [List.length_cons, List.length_nil]
        rw [pow_succ]
        have := Nat.div_add_mod n 10
        ring_nf
        omega

theorem strIndex?_natKey (n : Nat) : strIndex? (natKey n) = some n := by
  unfold strIndex? natKey
  rw [show (String.mk (natDigits n)).toList = natDigits n from rfl]
  rw [isCanonDigits_natDigits n, if_pos rfl]
  rw [natParseGo_natDigits n 0]
  simp

theorem natParseGo_bounds : ∀ (cs : List Char) (acc n : Nat),
    natParseGo cs acc = some n →
    acc * 10 ^ cs.length ≤ n ∧ n < (acc + 1) * 10 ^ cs.length := by
  intro cs
  induction cs with
  | nil =>
      intro acc n h
      simp only [natParseGo] at h
      injection h with h
      subst h
      simp
  | cons c cs ih =>
      intro acc n h
      simp only [natParseGo] at h
      cases hd : digit? c with
      | none => rw [hd] at h; cases h
      | some d =>
          rw [hd] at h
          have hd10 : d < 10 := (digit?_eq_some c d hd).1
          have hb := ih (acc * 10 + d) n h
          have hp : 0 < 10 ^ cs.length := Nat.pos_pow_of_pos _ (by omega)
          simp only [List.length_cons, pow_succ]
          constructor
          · calc acc * (10 ^ cs.length * 10) = (acc * 10) * 10 ^ cs.length := by ring
              _ ≤ (acc * 10 + d) * 10 ^ cs.length := Nat.mul_le_mul_right _ (by omega)
              _ ≤ n := hb.1
          · calc n < (acc * 10 + d + 1) * 10 ^ cs.length := hb.2
              _ ≤ ((acc + 1) * 10) * 10 ^ cs.length := Nat.mul_le_mul_right _ (by omega)
              _ = (acc + 1) * (10 ^ cs.length * 10) := by ring

theorem natParseGo_canon_digits : ∀ (cs : List Char) (n : Nat),
    isCanonDigits cs = true → natParseGo cs 0 = some n → cs = natDigits n := by
  suffices main : ∀ (L : Nat) (cs : List Char), cs.length ≤ L → ∀ n,
      isCanonDigits cs = true → natParseGo cs 0 = some n → cs = natDigits n by
    intro cs n
    exact main cs.length cs (le_refl _) n
  intro L
  induction L with
  | zero =>
      intro cs hl n hcanon hparse
      cases cs with
      | nil => simp [isCanonDigits] at hcanon
      | cons c cs => simp at hl
  | succ L ih =>
      intro cs hl n hcanon hparse
      rcases List.eq_nil_or_concat cs with hnil | ⟨ds, c, hcat⟩
      · subst hnil
        simp [isCanonDigits] at hcanon
      · rw [List.concat_eq_append] at hcat
        subst hcat
        rw [natParseGo_append] at hparse
        cases hm : natParseGo ds 0 with
        | none => rw [hm] at hparse; cases hparse
        | some m =>
            rw [hm] at hparse
            simp only [natParseGo] at hparse
            cases hd : digit? c with
            | none => rw [hd] at hparse; cases hparse
            | some d =>
                rw [hd] at hparse
                simp only [natParseGo] at hparse
                injection hparse with hparse
                obtain ⟨hd10, hcd⟩ := digit?_eq_some c d hd
                cases ds with
                | nil =>
                    simp only [natParseGo] at hm
                    injection hm with hm
                    subst hm
                    simp only [Nat.zero_mul, Nat.zero_add] at hparse
                    subst hparse
                    rw [natDigits_eq, if_pos hd10, hcd]
                    rfl
                | cons d0 ds' =>
                    have hd0 : d0 ≠ '0' := by
                      intro hh
                      subst hh
                      simp [isCanonDigits, List.isEmpty_iff] at hcanon
                    have hcanon' : isCanonDigits (d0 :: ds') = true := by
                      simp [isCanonDigits, hd0]
                    have hm1 : 1 ≤ m := by
                      simp only [natParseGo] at hm
                      cases he : digit? d0 with
                      | none => rw [he] at hm; cases hm
                      | some e =>
                          rw [he] at hm
                          obtain ⟨he10, hde⟩ := digit?_eq_some d0 e he
                          have he0 : e ≠ 0 := by
                            intro hh
                            subst hh
                            exact hd0 (by rw [hde]; rfl)
                          have hb := natParseGo_bounds ds' (0 * 10 + e) m hm
                          have hp : 0 < 10 ^ ds'.length := Nat.pos_pow_of_pos _ (by omega)
                          have := hb.1
                          have h1e : 1 * 10 ^ ds'.length ≤ (0 * 10 + e) * 10 ^ ds'.length :=
                            Nat.mul_le_mul_right _ (by omega)
                          omega
                    have hds : d0 :: ds' = natDigits m :=
                      ih (d0 :: ds')
                        (by
                          simp only [List.length_append, List.length_cons] at hl
                          simp only [List.length_cons]
                          omega) m hcanon' hm
                    have hn10 : ¬ n < 10 := by omega
                    rw [natDigits_eq, if_neg hn10]
                    have hdiv : n / 10 = m := by omega
                    have hmod : n % 10 = d := by omega
                    rw [hdiv, hmod, ← hds, hcd]

theorem strIndex?_eq_some (s : String) (n : Nat) :
    strIndex? s = some n ↔ s = natKey n := by
  constructor
  · intro h
    unfold strIndex? at h
    split at h
    · rename_i hcanon
      have := natParseGo_canon_digits s.toList n hcanon h
      have hs : String.mk s.toList = String.mk (natDigits n) := by rw [this]
      simpa [natKey] using hs
    · cases h
  · intro h
    subst h
    exact strIndex?_natKey n

theorem natKey_injective (a b : Nat) (h : natKey a = natKey b) : a = b := by
  have ha := strIndex?_natKey a
  rw [h, strIndex?_natKey b] at ha
  injection ha with ha
  exact ha.symm

theorem alookup_enumFrom_natKey {β : Type} (g : Char → β) :
    ∀ (cs : List Char) (off : Nat) (k : String),
    alookup ((cs.enumFrom off).map fun p => (natKey p.1, g p.2)) k =
      (strIndex? k).bind (fun i => if off ≤ i then (cs.get? (i - off)).map g else none) := by
  intro cs
  induction cs with
  | nil =>
      intro off k
      simp only [List.enumFrom, List.map_nil, alookup]
      cases strIndex? k with
      | none => rfl
      | some i => simp [Option.bind]
  | cons c cs ih =>
      intro off k
      simp only [List.enumFrom, List.map_cons, alookup]
      by_cases hk : k = natKey off
      · subst hk
        rw [if_pos rfl]
        rw [strIndex?_natKey off]
        simp
      · rw [if_neg (fun hh => hk hh.symm), ih (off + 1) k]
        cases hi : strIndex? k with
        | none => rfl
        | some i =>
            have hio : i ≠ off := by
              intro hh
              subst hh
              exact hk ((strIndex?_eq_some k i).mp hi)
            simp only [Option.bind]
            by_cases hle : off ≤ i
            · rw [if_pos hle, if_pos (by omega)]
              have : i - off = (i - (off + 1)) + 1 := by omega
              rw [this]
              rfl
            · rw [if_neg hle, if_neg (by omega)]

theorem segIdx?_eq_strIndex? (s : Seg) : segIdx? s = strIndex? (segStr s) := by
  cases s with
  | str ss => rfl
  | num n => simp [segIdx?, segStr, strIndex?_natKey]

theorem jsIndex_charFields (t : String) (s : Seg) :
    jsIndex (.obj (charFields t)) s = jsIndex (.str t) s := by
  show (alookup (charFields t) (segStr s)).getD .undef = _
  unfold charFields
  rw [show t.toList.enum = t.toList.enumFrom 0 from rfl]
  rw [alookup_enumFrom_natKey (fun c => JVal.str (String.mk [c])) t.toList 0 (segStr s)]
  have hseg := segIdx?_eq_strIndex? s
  cases hi : strIndex? (segStr s) with
  | none =>
      rw [hi] at hseg
      simp [jsIndex, hseg]
  | some i =>
      rw [hi] at hseg
      simp only [Option.bind, Nat.zero_le, if_pos, Nat.sub_zero]
      simp only [jsIndex, hseg]
      cases t.toList.get? i with
      | none => rfl
      | some c => rfl

theorem cellGet_charFieldsH (t : String) (s : Seg) :
    cellGet (.hobj (charFieldsH t)) s = primIndex (.hstr t) s := by
  show (alookup (charFieldsH t) (segStr s)).getD (.prim .hundef) = _
  unfold charFieldsH
  rw [show t.toList.enum = t.toList.enumFrom 0 from rfl]
  rw [alookup_enumFrom_natKey (fun c => HVal.prim (.hstr (String.mk [c]))) t.toList 0 (segStr s)]
  have hseg := segIdx?_eq_strIndex? s
  cases hi : strIndex? (segStr s) with
  | none =>
      rw [hi] at hseg
      simp [primIndex, hseg]
  | some i =>
      rw [hi] at hseg
      simp only [Option.bind, Nat.zero_le, if_pos, Nat.sub_zero]
      simp only [primIndex, hseg]
      cases t.toList.get? i with
      | none => rfl
      | some c => rfl

theorem shallowCopy_isContainer (v : JVal) : isContainer (shallowCopy v) = true := by
  cases v <;> rfl

theorem setGoE_eq_ok : ∀ (path : List Seg) (cur v : JVal),
    isContainer cur = true → setGoE cur path v = Except.ok (setGo cur path v) := by
  intro path
  induction path with
  | nil => intro cur v hc; rfl
  | cons s rest ih =>
      intro cur v hc
      have hnn : isNullish cur = false := by
        cases cur <;> first | rfl | simp [isContainer] at hc
      have hset : ∀ w, jsSetE cur s w = Except.ok (jsSet cur s w) := by
        intro w
        cases cur <;> first | rfl | simp [isContainer] at hc
      cases rest with
      | nil =>
          show jsSetE cur s v = Except.ok (jsSet cur s v)
          exact hset v
      | cons s1 rest' =>
          show (match jsIndexE cur s with
            | Except.error e => Except.error e
            | Except.ok child => _) = _
          rw [show jsIndexE cur s = Except.ok (jsIndex cur s) by simp [jsIndexE, hnn]]
          simp only
          rw [ih (shallowCopy _) v (shallowCopy_isContainer _)]
          simp only
          exact hset _

theorem setAtPathE_eq_ok (root : JVal) (path : List Seg) (v : JVal) :
    setAtPathE root path v = Except.ok (setAtPath root path v) := by
  cases path with
  | nil => rfl
  | cons s rest =>
      show setGoE (shallowCopy root) (s :: rest) v = Except.ok (setGo (shallowCopy root) (s :: rest) v)
      exact setGoE_eq_ok (s :: rest) (shallowCopy root) v (shallowCopy_isContainer root)

theorem jsIndex_shallowCopy_nullish (root : JVal) (s : Seg)
    (h : isNullish (getAtPath root [s]) = true) :
    isNullish (jsIndex (shallowCopy root) s) = true := by
  cases root with
  | null => rfl
  | undef => rfl
  | bool b => rfl
  | num n => rfl
  | str t =>
      rw [show shallowCopy (JVal.str t) = .obj (charFields t) from rfl, jsIndex_charFields]
      simpa [getAtPath, isNullish] using h
  | obj fs =>
      have hnn : isNullish (JVal.obj fs) = false := rfl
      rw [show shallowCopy (JVal.obj fs) = JVal.obj fs from rfl]
      simpa [getAtPath, hnn] using h
  | arr es ps =>
      have hnn : isNullish (JVal.arr es ps) = false := rfl
      have h' : isNullish (jsIndex (.arr es ps) s) = true := by
        simpa [getAtPath, hnn] using h
      show isNullish (jsIndex (.arr es []) s) = true
      cases hseg : segIdx? s with
      | some i =>
          rw [show jsIndex (.arr es []) s = es.getD i .undef by simp [jsIndex, hseg]]
          rw [show jsIndex (.arr es ps) s = es.getD i .undef by simp [jsIndex, hseg]] at h'
          exact h'
      | none =>
          rw [show jsIndex (.arr es []) s = (alookup [] (segStr s)).getD .undef by
            simp [jsIndex, hseg]]
          rfl

theorem jsIndex_emptyFor_nullish (s s' : Seg) :
    isNullish (jsIndex (emptyFor s) s') = true := by
  have harr : isNullish (jsIndex (.arr [] []) s') = true := by
    cases hseg : segIdx? s' with
    | some i =>
        rw [show jsIndex (.arr [] []) s' = List.getD [] i .undef by simp [jsIndex, hseg]]
        rfl
    | none =>
        rw [show jsIndex (.arr [] []) s' = (alookup [] (segStr s')).getD .undef by
          simp [jsIndex, hseg]]
        rfl
  unfold emptyFor
  by_cases hs : segIsNum s = true
  · rw [if_pos hs]
    exact harr
  · rw [if_neg hs]
    rfl

theorem setGo_emptyFor_chain : ∀ (rest : List Seg) (s : Seg) (v : JVal),
    setGo (emptyFor s) (s :: rest) v = chainVal (s :: rest) v := by
  intro rest
  induction rest with
  | nil => intro s v; rfl
  | cons s1 rest' ih =>
      intro s v
      show jsSet (emptyFor s) s (setGo (shallowCopy _) (s1 :: rest') v) = _
      rw [show chainVal (s :: s1 :: rest') v = jsSet (emptyFor s) s (chainVal (s1 :: rest') v) from rfl]
      congr 1
      rw [if_pos (jsIndex_emptyFor_nullish s s)]
      show setGo (shallowCopy (if segIsNum s1 then JVal.arr [] [] else JVal.obj [])) (s1 :: rest') v = _
      have hcopy : shallowCopy (if segIsNum s1 then JVal.arr [] [] else JVal.obj []) = emptyFor s1 := by
        unfold emptyFor
        by_cases h1 : segIsNum s1 = true
        · rw [if_pos h1]
          rfl
        · rw [if_neg h1]
          rfl
      rw [hcopy, ih s1 v]

/-- C7: for a non-empty path all of whose intermediate prefixes resolve
to a nullish value (missing intermediates), `setAtPath` does not throw
(the throwing embedding returns `ok` with the total function's value),
and the result writes, at the first segment of the copied root, the
chain that creates a fresh empty array at each step whose segment is a
number and a fresh empty object at each step whose segment is a string,
with the given value set at the final segment. -/
theorem setAtPath_missing_intermediates (root : JVal) (s : Seg) (rest : List Seg) (v : JVal)
    (hmiss : ∀ i, 1 ≤ i → i < (s :: rest).length →
      isNullish (getAtPath root ((s :: rest).take i)) = true) :
    setAtPathE root (s :: rest) v = Except.ok (setAtPath root (s :: rest) v) ∧
    setAtPath root (s :: rest) v = jsSet (shallowCopy root) s (chainVal rest v) := by
  refine ⟨setAtPathE_eq_ok root (s :: rest) v, ?_⟩
  show setGo (shallowCopy root) (s :: rest) v = _
  cases rest with
  | nil => rfl
  | cons s1 rest' =>
      show jsSet (shallowCopy root) s
          (setGo (shallowCopy _) (s1 :: rest') v) = _
      rw [show chainVal (s1 :: rest') v = chainVal (s1 :: rest') v from rfl]
      congr 1
      have h1 : isNullish (getAtPath root [s]) = true := by
        have := hmiss 1 (le_refl 1) (by simp)
        simpa using this
      rw [if_pos (jsIndex_shallowCopy_nullish root s h1)]
      show setGo (shallowCopy (if segIsNum s1 then JVal.arr [] [] else JVal.obj []))
          (s1 :: rest') v = _
      have hcopy : shallowCopy (if segIsNum s1 then JVal.arr [] [] else JVal.obj []) =
          emptyFor s1 := by
        unfold emptyFor
        by_cases hb : segIsNum s1 = true
        · rw [if_pos hb]
          rfl
        · rw [if_neg hb]
          rfl
      rw [hcopy, setGo_emptyFor_chain rest' s1 v]

theorem setAtPath_missing_intermediates_witness :
    setAtPath (JVal.obj []) [Seg.str "a", Seg.num 0] (JVal.num 5) =
      jsSet (shallowCopy (JVal.obj [])) (Seg.str "a") (chainVal [Seg.num 0] (JVal.num 5)) :=
  (setAtPath_missing_intermediates (JVal.obj []) (Seg.str "a") [Seg.num 0] (JVal.num 5)
    (fun i hge hlt => by
      have hi : i = 1 := by
        simp only [List.length_cons, List.length_nil] at hlt
        omega
      subst hi
      rfl)).2

theorem pure_shallowCopy (c : JVal) (h : isPureContainer c = true) : shallowCopy c = c := by
  cases c with
  | obj fs => rfl
  | arr es ps => cases ps with
      | nil => rfl
      | cons p ps' => simp [isPureContainer] at h
  | null => simp [isPureContainer] at h
  | undef => simp [isPureContainer] at h
  | bool b => simp [isPureContainer] at h
  | num n => simp [isPureContainer] at h
  | str t => simp [isPureContainer] at h

theorem pure_not_nullish (c : JVal) (h : isPureContainer c = true) : isNullish c = false := by
  cases c <;> first | rfl | simp [isPureContainer] at h

theorem pure_isContainer (c : JVal) (h : isPureContainer c = true) : isContainer c = true := by
  cases c <;> first | rfl | simp [isPureContainer] at h

theorem getD_cons_succ {α : Type} (x : α) (l : List α) (j : Nat) (d : α) :
    (x :: l).getD (j + 1) d = l.getD j d := rfl

theorem getD_set_self {α : Type} : ∀ (l : List α) (i : Nat) (v d : α), i < l.length →
    (l.set i v).getD i d = v := by
  intro l
  induction l with
  | nil => intro i v d h; simp at h
  | cons x xs ih =>
      intro i v d h
      cases i with
      | zero => rfl
      | succ j =>
          show (x :: xs.set j v).getD (j + 1) d = v
          rw [getD_cons_succ]
          exact ih j v d (by simpa using h)

theorem getD_replicate_append {α : Type} : ∀ (n : Nat) (pad v d : α),
    (List.replicate n pad ++ [v]).getD n d = v := by
  intro n
  induction n with
  | zero => intro pad v d; rfl
  | succ m ih =>
      intro pad v d
      show (pad :: (List.replicate m pad ++ [v])).getD (m + 1) d = v
      rw [getD_cons_succ]
      exact ih pad v d

theorem getD_pad_append {α : Type} : ∀ (es : List α) (i : Nat) (v pad d : α),
    es.length ≤ i →
    (es ++ List.replicate (i - es.length) pad ++ [v]).getD i d = v := by
  intro es
  induction es with
  | nil =>
      intro i v pad d h
      simpa using getD_replicate_append i pad v d
  | cons x xs ih =>
      intro i v pad d h
      simp only [List.length_cons] at h
      cases i with
      | zero => omega
      | succ j =>
          show (x :: (xs ++ List.replicate (j + 1 - (xs.length + 1)) pad ++ [v])).getD (j + 1) d = v
          rw [getD_cons_succ]
          have : j + 1 - (xs.length + 1) = j - xs.length := by omega
          rw [this]
          exact ih j v pad d (by omega)

theorem getD_listSetPad {α : Type} (es : List α) (i : Nat) (v pad d : α) :
    (listSetPad es i v pad).getD i d = v := by
  unfold listSetPad
  by_cases h : i < es.length
  · rw [if_pos h]
    exact getD_set_self es i v d h
  · rw [if_neg h]
    exact getD_pad_append es i v pad d (by omega)

theorem jsIndex_jsSet_self (c : JVal) (s : Seg) (x : JVal) (hc : isContainer c = true) :
    jsIndex (jsSet c s x) s = x := by
  cases c with
  | arr es ps =>
      cases hseg : segIdx? s with
      | some i =>
          rw [show jsSet (.arr es ps) s x = .arr (listSetPad es i x .undef) ps by
            simp [jsSet, hseg]]
          rw [show jsIndex (.arr (listSetPad es i x .undef) ps) s =
            (listSetPad es i x .undef).getD i .undef by simp [jsIndex, hseg]]
          exact getD_listSetPad es i x .undef .undef
      | none =>
          rw [show jsSet (.arr es ps) s x = .arr es (setKey ps (segStr s) x) by
            simp [jsSet, hseg]]
          rw [show jsIndex (.arr es (setKey ps (segStr s) x)) s =
            (alookup (setKey ps (segStr s) x) (segStr s)).getD .undef by simp [jsIndex, hseg]]
          rw [alookup_setKey_self]
          rfl
  | obj fs =>
      show (alookup (setKey fs (segStr s) x) (segStr s)).getD .undef = x
      rw [alookup_setKey_self]
      rfl
  | null => simp [isContainer] at hc
  | undef => simp [isContainer] at hc
  | bool b => simp [isContainer] at hc
  | num n => simp [isContainer] at hc
  | str t => simp [isContainer] at hc

theorem setKey_alookup_self {α : Type} : ∀ (fs : List (String × α)) (k : String) (v : α),
    alookup fs k = some v → setKey fs k v = fs := by
  intro fs
  induction fs with
  | nil => intro k v h; simp [alookup] at h
  | cons p rest ih =>
      intro k v h
      obtain ⟨k0, v0⟩ := p
      by_cases h0 : k0 = k
      · subst h0
        simp only [alookup, if_pos rfl] at h
        injection h with h
        subst h
        simp [setKey]
      · simp only [alookup, if_neg h0] at h
        simp [setKey, h0, ih k v h]

theorem set_getD_self {α : Type} : ∀ (l : List α) (i : Nat) (d : α), i < l.length →
    l.set i (l.getD i d) = l := by
  intro l
  induction l with
  | nil => intro i d h; simp at h
  | cons x xs ih =>
      intro i d h
      cases i with
      | zero => rfl
      | succ j =>
          show x :: xs.set j ((x :: xs).getD (j + 1) d) = x :: xs
          rw [getD_cons_succ]
          rw [ih j d (by simpa using h)]

theorem getD_out_of_range {α : Type} : ∀ (l : List α) (i : Nat) (d : α), l.length ≤ i →
    l.getD i d = d := by
  intro l
  induction l with
  | nil => intro i d h; cases i <;> rfl
  | cons x xs ih =>
      intro i d h
      simp only [List.length_cons] at h
      cases i with
      | zero => omega
      | succ j =>
          rw [getD_cons_succ]
          exact ih j d (by omega)

theorem jsSet_jsIndex_self (c : JVal) (s : Seg)
    (hp : isPureContainer c = true) (hnu : isUndef (jsIndex c s) = false) :
    jsSet c s (jsIndex c s) = c := by
  cases c with
  | obj fs =>
      show JVal.obj (setKey fs (segStr s) ((alookup fs (segStr s)).getD .undef)) = _
      cases hl : alookup fs (segStr s) with
      | none =>
          rw [show jsIndex (JVal.obj fs) s = (alookup fs (segStr s)).getD .undef from rfl, hl] at hnu
          cases hnu
      | some w =>
          rw [show (some w).getD JVal.undef = w from rfl]
          rw [setKey_alookup_self fs (segStr s) w hl]
  | arr es ps =>
      cases ps with
      | cons p ps' => simp [isPureContainer] at hp
      | nil =>
          cases hseg : segIdx? s with
          | some i =>
              have hidx : jsIndex (.arr es []) s = es.getD i .undef := by simp [jsIndex, hseg]
              have hlt : i < es.length := by
                by_contra hge
                rw [hidx, getD_out_of_range es i .undef (by omega)] at hnu
                cases hnu
              rw [show jsSet (.arr es []) s (jsIndex (.arr es []) s) =
                .arr (listSetPad es i (jsIndex (.arr es []) s) .undef) [] by simp [jsSet, hseg]]
              rw [hidx]
              unfold listSetPad
              rw [if_pos hlt, set_getD_self es i .undef hlt]
          | none =>
              have hidx : jsIndex (.arr es []) s = (alookup [] (segStr s)).getD .undef := by
                simp [jsIndex, hseg]
              rw [hidx] at hnu
              cases hnu
  | null => simp [isPureContainer] at hp
  | undef => simp [isPureContainer] at hp
  | bool b => simp [isPureContainer] at hp
  | num n => simp [isPureContainer] at hp
  | str t => simp [isPureContainer] at hp

theorem getAtPath_cons_not_nullish (root : JVal) (s : Seg) (q : List Seg)
    (h : isNullish root = false) :
    getAtPath root (s :: q) = getAtPath (jsIndex root s) q := by
  simp [getAtPath, h]

theorem pure_not_undef (c : JVal) (h : isPureContainer c = true) : isUndef c = false := by
  cases c <;> first | rfl | simp [isPureContainer] at h

/-- C8 counterexample: the round trip fails when a string lies on the
path.  For `root = {"a":"xy"}` and `path = ["a", 0]`, the path resolves
to the character `"x"` (not the NOT_FOUND sentinel), yet writing that
value back spreads the string into a character-indexed object: the
result is `{"a":{"0":"x","1":"y"}}`, not deep-equal to `root`. -/
theorem setAtPath_roundtrip_counterexample :
    isUndef (getAtPath (JVal.obj [("a", JVal.str "xy")]) [Seg.str "a", Seg.num 0]) = false ∧
    setAtPath (JVal.obj [("a", JVal.str "xy")]) [Seg.str "a", Seg.num 0]
        (getAtPath (JVal.obj [("a", JVal.str "xy")]) [Seg.str "a", Seg.num 0]) ≠
      JVal.obj [("a", JVal.str "xy")] :=
  ⟨rfl,
   fun h =>
     absurd (congrArg (fun x => tagOfJ (jsIndex x (Seg.str "a"))) h) (by decide)⟩

/-- C8 (amended): resolve-then-write is a no-op on structural content
provided every value strictly on the path (the root and every proper
prefix's value) is an object or a plain array: then writing the
resolved (non-`undefined`) value back at the same path returns a value
equal to the original root. -/
theorem setAtPath_roundtrip_pure : ∀ (path : List Seg) (root : JVal),
    isUndef (getAtPath root path) = false →
    (∀ i, i < path.length → isPureContainer (getAtPath root (path.take i)) = true) →
    setAtPath root path (getAtPath root path) = root := by
  intro path
  induction path with
  | nil => intro root _ _; rfl
  | cons s rest ih =>
      intro root hres hcont
      have hroot : isPureContainer root = true := by
        have := hcont 0 (by simp)
        simpa [getAtPath] using this
      have hnn : isNullish root = false := pure_not_nullish root hroot
      have hw : getAtPath root (s :: rest) = getAtPath (jsIndex root s) rest :=
        getAtPath_cons_not_nullish root s rest hnn
      show setGo (shallowCopy root) (s :: rest) (getAtPath root (s :: rest)) = root
      rw [pure_shallowCopy root hroot]
      cases rest with
      | nil =>
          show jsSet root s (getAtPath root [s]) = root
          have hx : getAtPath root [s] = jsIndex root s := by
            rw [hw]
            rfl
          rw [hx]
          refine jsSet_jsIndex_self root s hroot ?_
          rw [← hx]
          exact hres
      | cons s1 rest' =>
          have hchild : isPureContainer (jsIndex root s) = true := by
            have h1 := hcont 1 (by simp)
            rw [show (s :: s1 :: rest').take 1 = [s] from rfl] at h1
            rw [getAtPath_cons_not_nullish root s [] hnn] at h1
            exact h1
          have hchildnn : isNullish (jsIndex root s) = false := pure_not_nullish _ hchild
          simp only [setGo]
          rw [if_neg (by simp [hchildnn])]
          rw [pure_shallowCopy _ hchild]
          have hres' : isUndef (getAtPath (jsIndex root s) (s1 :: rest')) = false := by
            rw [← hw]
            exact hres
          have hcont' : ∀ i, i < (s1 :: rest').length →
              isPureContainer (getAtPath (jsIndex root s) ((s1 :: rest').take i)) = true := by
            intro i hi
            have := hcont (i + 1) (by simpa using Nat.succ_lt_succ hi)
            rw [show (s :: s1 :: rest').take (i + 1) = s :: (s1 :: rest').take i from rfl] at this
            rw [getAtPath_cons_not_nullish root s _ hnn] at this
            exact this
          have hih := ih (jsIndex root s) hres' hcont'
          rw [show setAtPath (jsIndex root s) (s1 :: rest') (getAtPath (jsIndex root s) (s1 :: rest')) =
              setGo (shallowCopy (jsIndex root s)) (s1 :: rest') (getAtPath (jsIndex root s) (s1 :: rest')) from rfl,
            pure_shallowCopy _ hchild] at hih
          rw [hw, hih]
          exact jsSet_jsIndex_self root s hroot (pure_not_undef _ hchild)

theorem setAtPath_roundtrip_pure_witness :
    setAtPath (JVal.obj [("a", JVal.obj [("b", JVal.num 1)])]) [Seg.str "a", Seg.str "b"]
        (getAtPath (JVal.obj [("a", JVal.obj [("b", JVal.num 1)])]) [Seg.str "a", Seg.str "b"]) =
      JVal.obj [("a", JVal.obj [("b", JVal.num 1)])] :=
  setAtPath_roundtrip_pure [Seg.str "a", Seg.str "b"]
    (JVal.obj [("a", JVal.obj [("b", JVal.num 1)])]) rfl
    (fun i hi => by
      match i with
      | 0 => rfl
      | 1 => rfl)

theorem prim_not_nullish (c : JVal) (h : isPrimNonNull c = true) : isNullish c = false := by
  cases c <;> first | rfl | simp [isPrimNonNull] at h

theorem jsSet_not_nullish (c : JVal) (s : Seg) (x : JVal) (hc : isContainer c = true) :
    isNullish (jsSet c s x) = false := by
  cases c with
  | arr es ps =>
      show isNullish (match segIdx? s with
        | some i => JVal.arr (listSetPad es i x .undef) ps
        | none => JVal.arr es (setKey ps (segStr s) x)) = false
      cases segIdx? s with
      | some i => rfl
      | none => rfl
  | obj fs => rfl
  | null => simp [isContainer] at hc
  | undef => simp [isContainer] at hc
  | bool b => simp [isContainer] at hc
  | num n => simp [isContainer] at hc
  | str t => simp [isContainer] at hc

/-- C10 (implicit): when the first `i` values on the path (the root and
the proper prefixes before position `i`) are objects or plain arrays and
the value at position `i` (an intermediate, `1 ≤ i < path.length`) is a
non-null primitive, `setAtPath` does not throw and does not apply the
missing-step creation rule at that position; instead the result carries,
at that prefix, the walk continued from the *shallow spread* of the
primitive — which is `{}` for numbers and booleans and the
character-indexed object for strings — regardless of whether the next
segment is an integer. -/
theorem setAtPath_primitive_intermediate : ∀ (path : List Seg) (root v : JVal) (i : Nat),
    1 ≤ i → i < path.length →
    (∀ j, j < i → isPureContainer (getAtPath root (path.take j)) = true) →
    isPrimNonNull (getAtPath root (path.take i)) = true →
    setAtPathE root path v = Except.ok (setAtPath root path v) ∧
    getAtPath (setAtPath root path v) (path.take i) =
      setGo (shallowCopy (getAtPath root (path.take i))) (path.drop i) v ∧
    (∀ n : Int, shallowCopy (JVal.num n) = JVal.obj []) ∧
    (∀ b : Bool, shallowCopy (JVal.bool b) = JVal.obj []) ∧
    (∀ t : String, shallowCopy (JVal.str t) = JVal.obj (charFields t)) := by
  intro path
  induction path with
  | nil => intro root v i h1 hlt; simp at hlt
  | cons s rest ih =>
      intro root v i h1 hlt hcont hprim
      refine ⟨setAtPathE_eq_ok root (s :: rest) v, ?_, fun n => rfl, fun b => rfl, fun t => rfl⟩
      have hroot : isPureContainer root = true := by
        have := hcont 0 (by omega)
        simpa [getAtPath] using this
      have hnn : isNullish root = false := pure_not_nullish root hroot
      cases rest with
      | nil => simp at hlt; omega
      | cons s1 rest' =>
          match i, h1 with
          | 1, _ =>
              have hx : getAtPath root ((s :: s1 :: rest').take 1) = jsIndex root s := by
                rw [show (s :: s1 :: rest').take 1 = [s] from rfl]
                rw [getAtPath_cons_not_nullish root s [] hnn]
                rfl
              rw [hx] at hprim ⊢
              have hchnn : isNullish (jsIndex root s) = false := prim_not_nullish _ hprim
              show getAtPath (setGo (shallowCopy root) (s :: s1 :: rest') v) [s] = _
              rw [pure_shallowCopy root hroot]
              simp only [setGo]
              rw [if_neg (by simp [hchnn])]
              have hcon : isContainer root = true := pure_isContainer root hroot
              rw [getAtPath_cons_not_nullish _ s []
                (jsSet_not_nullish root s _ hcon)]
              rw [jsIndex_jsSet_self root s _ hcon]
              rfl
          | k + 2, _ =>
              have hx1 : getAtPath root ((s :: s1 :: rest').take 1) = jsIndex root s := by
                rw [show (s :: s1 :: rest').take 1 = [s] from rfl]
                rw [getAtPath_cons_not_nullish root s [] hnn]
                rfl
              have hchild : isPureContainer (jsIndex root s) = true := by
                have := hcont 1 (by omega)
                rw [hx1] at this
                exact this
              have hchnn : isNullish (jsIndex root s) = false := pure_not_nullish _ hchild
              have htake : (s :: s1 :: rest').take (k + 2) = s :: (s1 :: rest').take (k + 1) := rfl
              have hpath : getAtPath root ((s :: s1 :: rest').take (k + 2)) =
                  getAtPath (jsIndex root s) ((s1 :: rest').take (k + 1)) := by
                rw [htake, getAtPath_cons_not_nullish root s _ hnn]
              have hlt' : k + 1 < (s1 :: rest').length := by
                simp only [List.length_cons] at hlt ⊢
                omega
              have hcont' : ∀ j, j < k + 1 →
                  isPureContainer (getAtPath (jsIndex root s) ((s1 :: rest').take j)) = true := by
                intro j hj
                have := hcont (j + 1) (by omega)
                rw [show (s :: s1 :: rest').take (j + 1) = s :: (s1 :: rest').take j from rfl,
                  getAtPath_cons_not_nullish root s _ hnn] at this
                exact this
              have hprim' : isPrimNonNull
                  (getAtPath (jsIndex root s) ((s1 :: rest').take (k + 1))) = true := by
                rw [← hpath]
                exact hprim
              have hih := (ih (jsIndex root s) v (k + 1) (by omega) hlt' hcont' hprim').2.1
              rw [show setAtPath (jsIndex root s) (s1 :: rest') v =
                  setGo (shallowCopy (jsIndex root s)) (s1 :: rest') v from rfl,
                pure_shallowCopy _ hchild] at hih
              show getAtPath (setGo (shallowCopy root) (s :: s1 :: rest') v)
                  ((s :: s1 :: rest').take (k + 2)) = _
              rw [pure_shallowCopy root hroot]
              simp only [setGo]
              rw [if_neg (by simp [hchnn]), pure_shallowCopy _ hchild]
              have hcon : isContainer root = true := pure_isContainer root hroot
              rw [htake, getAtPath_cons_not_nullish _ s _
                (jsSet_not_nullish root s _ hcon)]
              rw [jsIndex_jsSet_self root s _ hcon]
              rw [hih]
              rw [getAtPath_cons_not_nullish root s _ hnn]
              rfl

theorem setAtPath_primitive_intermediate_witness :
    getAtPath (setAtPath (JVal.obj [("a", JVal.num 5)]) [Seg.str "a", Seg.str "b"] (JVal.num 9))
        ([Seg.str "a", Seg.str "b"].take 1) =
      setGo (shallowCopy (getAtPath (JVal.obj [("a", JVal.num 5)])
        ([Seg.str "a", Seg.str "b"].take 1))) ([Seg.str "a", Seg.str "b"].drop 1) (JVal.num 9) :=
  (setAtPath_primitive_intermediate [Seg.str "a", Seg.str "b"]
    (JVal.obj [("a", JVal.num 5)]) (JVal.num 9) 1 (le_refl 1) (by decide)
    (fun j hj => by
      have hj0 : j = 0 := by omega
      subst hj0
      rfl) rfl).2.1

theorem hfind_mem : ∀ (mem : List (Nat × HCell)) (r : Nat) (c : HCell),
    hfind mem r = some c → (r, c) ∈ mem := by
  intro mem
  induction mem with
  | nil => intro r c h; cases h
  | cons p rest ih =>
      intro r c h
      obtain ⟨r0, c0⟩ := p
      simp only [hfind] at h
      by_cases h0 : r0 = r
      · subst h0
        rw [if_pos rfl] at h
        injection h with h
        subst h
        exact List.mem_cons_self _ _
      · rw [if_neg h0] at h
        exact List.mem_cons_of_mem _ (ih r c h)

theorem closedB_find (h : Heap) (r : Nat) (c : HCell) (hc : Heap.closedB h = true)
    (hf : h.find r = some c) : r < h.next ∧ HCell.belowB h.next c = true := by
  have hm := hfind_mem h.mem r c hf
  have := List.all_eq_true.mp hc (r, c) hm
  simp only [Bool.and_eq_true, decide_eq_true_eq] at this
  exact this

theorem jsonArraysB_find (h : Heap) (r : Nat) (es : List HVal) (ps : List (String × HVal))
    (hj : Heap.jsonArraysB h = true) (hf : h.find r = some (.harr es ps)) : ps = [] := by
  have hm := hfind_mem h.mem r _ hf
  have := List.all_eq_true.mp hj (r, .harr es ps) hm
  simpa [List.isEmpty_iff] using this

theorem find_put (h : Heap) (r : Nat) (c : HCell) (r' : Nat) :
    (h.put r c).find r' = if r = r' then some c else h.find r' := rfl

theorem find_alloc (h : Heap) (c : HCell) (r' : Nat) :
    (h.alloc c).1.find r' = if h.next = r' then some c else h.find r' := rfl

theorem alookup_values_mem {α : Type} : ∀ (l : List (String × α)) (k : String) (v : α),
    alookup l k = some v → (k, v) ∈ l := by
  intro l
  induction l with
  | nil => intro k v h; cases h
  | cons p rest ih =>
      intro k v h
      obtain ⟨k0, v0⟩ := p
      simp only [alookup] at h
      by_cases h0 : k0 = k
      · subst h0
        rw [if_pos rfl] at h
        injection h with h
        subst h
        exact List.mem_cons_self _ _
      · rw [if_neg h0] at h
        exact List.mem_cons_of_mem _ (ih k v h)

theorem getD_below (n : Nat) : ∀ (es : List HVal) (i : Nat),
    es.all (HVal.belowB n) = true →
    HVal.belowB n (es.getD i (.prim .hundef)) = true := by
  intro es
  induction es with
  | nil => intro i _; cases i <;> rfl
  | cons x xs ih =>
      intro i hall
      simp only [List.all_cons, Bool.and_eq_true] at hall
      cases i with
      | zero => exact hall.1
      | succ j =>
          rw [getD_cons_succ]
          exact ih j hall.2

theorem cellGet_below (n : Nat) (c : HCell) (s : Seg) (hc : HCell.belowB n c = true) :
    HVal.belowB n (cellGet c s) = true := by
  cases c with
  | harr es ps =>
      simp only [HCell.belowB, Bool.and_eq_true] at hc
      cases hseg : segIdx? s with
      | some i =>
          rw [show cellGet (.harr es ps) s = es.getD i (.prim .hundef) by simp [cellGet, hseg]]
          exact getD_below n es i hc.1
      | none =>
          rw [show cellGet (.harr es ps) s = (alookup ps (segStr s)).getD (.prim .hundef) by
            simp [cellGet, hseg]]
          cases hl : alookup ps (segStr s) with
          | none => rfl
          | some v =>
              have hm := alookup_values_mem ps (segStr s) v hl
              have := List.all_eq_true.mp hc.2 _ hm
              exact this
  | hobj fs =>
      simp only [HCell.belowB] at hc
      show HVal.belowB n ((alookup fs (segStr s)).getD (.prim .hundef)) = true
      cases hl : alookup fs (segStr s) with
      | none => rfl
      | some v =>
          have hm := alookup_values_mem fs (segStr s) v hl
          exact List.all_eq_true.mp hc _ hm

theorem primIndex_prim (p : HPrim) (s : Seg) : ∃ p', primIndex p s = .prim p' := by
  cases p with
  | hstr t =>
      cases hseg : segIdx? s with
      | some i =>
          cases hgc : t.toList.get? i with
          | some c =>
              refine ⟨.hstr (String.mk [c]), ?_⟩
              rw [List.get?_eq_getElem?] at hgc
              have hgc' : t.data[i]? = some c := hgc
              simp [primIndex, hseg, hgc']
          | none =>
              refine ⟨.hundef, ?_⟩
              rw [List.get?_eq_getElem?] at hgc
              have hgc' : t.data[i]? = none := hgc
              simp [primIndex, hseg, hgc']
      | none => exact ⟨.hundef, by simp [primIndex, hseg]⟩
  | hnull => exact ⟨_, rfl⟩
  | hundef => exact ⟨_, rfl⟩
  | hbool b => exact ⟨_, rfl⟩
  | hnum m => exact ⟨_, rfl⟩

theorem hIndex_below (h : Heap) (v : HVal) (s : Seg) (hc : Heap.closedB h = true)
    (hv : HVal.belowB h.next v = true) : HVal.belowB h.next (hIndex h v s) = true := by
  cases v with
  | prim p =>
      obtain ⟨p', hp⟩ := primIndex_prim p s
      show HVal.belowB h.next (primIndex p s) = true
      rw [hp]
      rfl
  | ref r =>
      show HVal.belowB h.next (match h.find r with
        | some c => cellGet c s
        | none => .prim .hundef) = true
      cases hf : h.find r with
      | none => rfl
      | some c => exact cellGet_below h.next c s (closedB_find h r c hc hf).2

theorem resolveH_undef (h : Heap) : ∀ q, resolveH h (.prim .hundef) q = .prim .hundef := by
  intro q
  cases q with
  | nil => rfl
  | cons a b => rfl

theorem hIndex_nullish (h : Heap) (v : HVal) (s : Seg) (hn : isNullishH v = true) :
    hIndex h v s = .prim .hundef := by
  cases v with
  | ref r => simp [isNullishH] at hn
  | prim p => cases p <;> first | rfl | simp [isNullishH] at hn

theorem resolveH_cons_hIndex (h : Heap) (v : HVal) (q0 : Seg) (qr : List Seg) :
    resolveH h v (q0 :: qr) = resolveH h (hIndex h v q0) qr := by
  by_cases hn : isNullishH v = true
  · rw [show resolveH h v (q0 :: qr) =
      (if isNullishH v = true then .prim .hundef else resolveH h (hIndex h v q0) qr) from rfl]
    rw [if_pos hn, hIndex_nullish h v q0 hn, resolveH_undef]
  · rw [show resolveH h v (q0 :: qr) =
      (if isNullishH v = true then .prim .hundef else resolveH h (hIndex h v q0) qr) from rfl]
    rw [if_neg hn]

theorem resolveH_frame : ∀ (q : List Seg) (h h' : Heap) (v : HVal),
    Heap.closedB h = true →
    (∀ r, r < h.next → h'.find r = h.find r) →
    HVal.belowB h.next v = true →
    resolveH h' v q = resolveH h v q := by
  intro q
  induction q with
  | nil => intro h h' v _ _ _; rfl
  | cons s qr ih =>
      intro h h' v hc hext hv
      rw [resolveH_cons_hIndex, resolveH_cons_hIndex]
      have hidx : hIndex h' v s = hIndex h v s := by
        cases v with
        | prim p => rfl
        | ref r =>
            have hr : r < h.next := by simpa [HVal.belowB] using hv
            show (match h'.find r with
              | some c => cellGet c s
              | none => .prim .hundef) = (match h.find r with
              | some c => cellGet c s
              | none => .prim .hundef)
            rw [hext r hr]
      rw [hidx]
      exact ih h h' (hIndex h v s) hc hext (hIndex_below h v s hc hv)

theorem segIdx?_congr (s s' : Seg) (h : segStr s' = segStr s) : segIdx? s' = segIdx? s := by
  rw [segIdx?_eq_strIndex?, segIdx?_eq_strIndex?, h]

theorem cellGet_congr (c : HCell) (s s' : Seg) (h : segStr s' = segStr s) :
    cellGet c s' = cellGet c s := by
  cases c with
  | harr es ps =>
      show (match segIdx? s' with
        | some i => es.getD i (.prim .hundef)
        | none => (alookup ps (segStr s')).getD (.prim .hundef)) = _
      rw [segIdx?_congr s s' h, h]
      rfl
  | hobj fs =>
      show (alookup fs (segStr s')).getD (.prim .hundef) = _
      rw [h]
      rfl

theorem primIndex_congr (p : HPrim) (s s' : Seg) (h : segStr s' = segStr s) :
    primIndex p s' = primIndex p s := by
  cases p with
  | hstr t =>
      show (match segIdx? s' with
        | some i => match t.toList.get? i with
          | some c => HVal.prim (.hstr (String.mk [c]))
          | none => HVal.prim .hundef
        | none => HVal.prim .hundef) = _
      rw [segIdx?_congr s s' h]
      rfl
  | hnull => rfl
  | hundef => rfl
  | hbool b => rfl
  | hnum m => rfl

theorem hIndex_congr (h : Heap) (v : HVal) (s s' : Seg) (hk : segStr s' = segStr s) :
    hIndex h v s' = hIndex h v s := by
  cases v with
  | prim p => exact primIndex_congr p s s' hk
  | ref r =>
      show (match h.find r with
        | some c => cellGet c s'
        | none => .prim .hundef) = (match h.find r with
        | some c => cellGet c s
        | none => .prim .hundef)
      cases h.find r with
      | none => rfl
      | some c => exact cellGet_congr c s s' hk

theorem getD_set_ne {α : Type} : ∀ (l : List α) (i i' : Nat) (v d : α), i' ≠ i →
    (l.set i v).getD i' d = l.getD i' d := by
  intro l
  induction l with
  | nil => intro i i' v d _; rfl
  | cons x xs ih =>
      intro i i' v d hne
      cases i with
      | zero =>
          cases i' with
          | zero => omega
          | succ j' => rfl
      | succ j =>
          cases i' with
          | zero => rfl
          | succ j' =>
              show (x :: xs.set j v).getD (j' + 1) d = (x :: xs).getD (j' + 1) d
              rw [getD_cons_succ, getD_cons_succ]
              exact ih j j' v d (by omega)

theorem getD_append_left {α : Type} : ∀ (l l' : List α) (i : Nat) (d : α), i < l.length →
    (l ++ l').getD i d = l.getD i d := by
  intro l
  induction l with
  | nil => intro l' i d h; simp at h
  | cons x xs ih =>
      intro l' i d h
      cases i with
      | zero => rfl
      | succ j =>
          show (x :: (xs ++ l')).getD (j + 1) d = (x :: xs).getD (j + 1) d
          rw [getD_cons_succ, getD_cons_succ]
          exact ih l' j d (by simpa using h)

theorem getD_replicate_lt {α : Type} : ∀ (n j : Nat) (pad v d : α), j < n →
    (List.replicate n pad ++ [v]).getD j d = pad := by
  intro n
  induction n with
  | zero => intro j pad v d h; omega
  | succ m ih =>
      intro j pad v d h
      cases j with
      | zero => rfl
      | succ j' =>
          show (pad :: (List.replicate m pad ++ [v])).getD (j' + 1) d = pad
          rw [getD_cons_succ]
          exact ih j' pad v d (by omega)

theorem getD_append_skip {α : Type} : ∀ (l l' : List α) (j : Nat) (d : α),
    (l ++ l').getD (l.length + j) d = l'.getD j d := by
  intro l
  induction l with
  | nil => intro l' j d; simp
  | cons x xs ih =>
      intro l' j d
      show (x :: (xs ++ l')).getD (xs.length + 1 + j) d = l'.getD j d
      rw [show xs.length + 1 + j = (xs.length + j) + 1 by omega, getD_cons_succ]
      exact ih l' j d

theorem getD_listSetPad_ne {α : Type} (es : List α) (i i' : Nat) (v pad : α) (hne : i' ≠ i) :
    (listSetPad es i v pad).getD i' pad = es.getD i' pad := by
  unfold listSetPad
  by_cases h : i < es.length
  · rw [if_pos h]
    exact getD_set_ne es i i' v pad hne
  · rw [if_neg h]
    by_cases h' : i' < es.length
    · rw [List.append_assoc, getD_append_left _ _ i' pad h']
    · rw [getD_out_of_range es i' pad (by omega)]
      by_cases hlt : i' < i
      · have hsplit : i' = es.length + (i' - es.length) := by omega
        rw [hsplit, List.append_assoc, getD_append_skip]
        exact getD_replicate_lt (i - es.length) (i' - es.length) pad v pad (by omega)
      · have hlen : (es ++ List.replicate (i - es.length) pad ++ [v]).length = i + 1 := by
          simp
          omega
        rw [getD_out_of_range _ i' pad (by omega)]

theorem cellGet_cellSet_self (c : HCell) (s s' : Seg) (v : HVal)
    (hk : segStr s' = segStr s) : cellGet (cellSet c s v) s' = v := by
  rw [cellGet_congr _ s s' hk]
  cases c with
  | hobj fs =>
      show (alookup (setKey fs (segStr s) v) (segStr s)).getD (.prim .hundef) = v
      rw [alookup_setKey_self]
      rfl
  | harr es ps =>
      cases hseg : segIdx? s with
      | some i =>
          rw [show cellSet (.harr es ps) s v = .harr (listSetPad es i v (.prim .hundef)) ps by
            simp [cellSet, hseg]]
          rw [show cellGet (.harr (listSetPad es i v (.prim .hundef)) ps) s =
            (listSetPad es i v (.prim .hundef)).getD i (.prim .hundef) by simp [cellGet, hseg]]
          exact getD_listSetPad es i v (.prim .hundef) (.prim .hundef)
      | none =>
          rw [show cellSet (.harr es ps) s v = .harr es (setKey ps (segStr s) v) by
            simp [cellSet, hseg]]
          rw [show cellGet (.harr es (setKey ps (segStr s) v)) s =
            (alookup (setKey ps (segStr s) v) (segStr s)).getD (.prim .hundef) by
            simp [cellGet, hseg]]
          rw [alookup_setKey_self]
          rfl

theorem segStr_of_segIdx? (s : Seg) (i : Nat) (h : segIdx? s = some i) :
    segStr s = natKey i := by
  cases s with
  | num n =>
      injection h with h
      subst h
      rfl
  | str ss => exact (strIndex?_eq_some ss i).mp h

theorem cellGet_cellSet_ne (c : HCell) (s s' : Seg) (v : HVal)
    (hk : segStr s' ≠ segStr s) : cellGet (cellSet c s v) s' = cellGet c s' := by
  cases c with
  | hobj fs =>
      show (alookup (setKey fs (segStr s) v) (segStr s')).getD (.prim .hundef) =
        (alookup fs (segStr s')).getD (.prim .hundef)
      rw [alookup_setKey_ne fs (segStr s) (segStr s') v hk]
  | harr es ps =>
      cases hs : segIdx? s with
      | some i =>
          rw [show cellSet (.harr es ps) s v = .harr (listSetPad es i v (.prim .hundef)) ps by
            simp [cellSet, hs]]
          cases hs' : segIdx? s' with
          | some i' =>
              have hii : i' ≠ i := by
                intro hh
                subst hh
                exact hk ((segStr_of_segIdx? s' i' hs').trans (segStr_of_segIdx? s i' hs).symm)
              rw [show cellGet (.harr (listSetPad es i v (.prim .hundef)) ps) s' =
                (listSetPad es i v (.prim .hundef)).getD i' (.prim .hundef) by
                simp [cellGet, hs']]
              rw [show cellGet (.harr es ps) s' = es.getD i' (.prim .hundef) by
                simp [cellGet, hs']]
              exact getD_listSetPad_ne es i i' v (.prim .hundef) hii
          | none =>
              rw [show cellGet (.harr (listSetPad es i v (.prim .hundef)) ps) s' =
                (alookup ps (segStr s')).getD (.prim .hundef) by simp [cellGet, hs']]
              rw [show cellGet (.harr es ps) s' =
                (alookup ps (segStr s')).getD (.prim .hundef) by simp [cellGet, hs']]
      | none =>
          rw [show cellSet (.harr es ps) s v = .harr es (setKey ps (segStr s) v) by
            simp [cellSet, hs]]
          cases hs' : segIdx? s' with
          | some i' =>
              rw [show cellGet (.harr es (setKey ps (segStr s) v)) s' =
                es.getD i' (.prim .hundef) by simp [cellGet, hs']]
              rw [show cellGet (.harr es ps) s' = es.getD i' (.prim .hundef) by
                simp [cellGet, hs']]
          | none =>
              rw [show cellGet (.harr es (setKey ps (segStr s) v)) s' =
                (alookup (setKey ps (segStr s) v) (segStr s')).getD (.prim .hundef) by
                simp [cellGet, hs']]
              rw [show cellGet (.harr es ps) s' =
                (alookup ps (segStr s')).getD (.prim .hundef) by simp [cellGet, hs']]
              rw [alookup_setKey_ne ps (segStr s) (segStr s') v hk]

theorem copyOf_frame (h0 hx : Heap) (v : HVal)
    (hb : HVal.belowB h0.next v = true)
    (hext : ∀ r, r < h0.next → hx.find r = h0.find r) :
    copyOf hx v = copyOf h0 v := by
  cases v with
  | prim p => cases p <;> rfl
  | ref r =>
      have hr : r < h0.next := by simpa [HVal.belowB] using hb
      show (match hx.find r with
        | some (.harr es _) => HCell.harr es []
        | some (.hobj fs) => HCell.hobj fs
        | none => HCell.hobj []) = (match h0.find r with
        | some (.harr es _) => HCell.harr es []
        | some (.hobj fs) => HCell.hobj fs
        | none => HCell.hobj [])
      rw [hext r hr]

theorem cellGet_copyOf (h0 : Heap) (v : HVal) (s : Seg)
    (hjson : Heap.jsonArraysB h0 = true) :
    cellGet (copyOf h0 v) s = hIndex h0 v s := by
  cases v with
  | prim p =>
      cases p with
      | hstr t => exact cellGet_charFieldsH t s
      | hnull => rfl
      | hundef => rfl
      | hbool b => rfl
      | hnum m => rfl
  | ref r =>
      show cellGet (match h0.find r with
        | some (.harr es _) => HCell.harr es []
        | some (.hobj fs) => HCell.hobj fs
        | none => HCell.hobj []) s = (match h0.find r with
        | some c => cellGet c s
        | none => .prim .hundef)
      cases hf : h0.find r with
      | none => rfl
      | some c =>
          cases c with
          | hobj fs => rfl
          | harr es ps =>
              have hps : ps = [] := jsonArraysB_find h0 r es ps hjson hf
              subst hps
              rfl

theorem cellGet_empty_arr (s : Seg) : cellGet (.harr [] []) s = .prim .hundef := by
  cases hseg : segIdx? s with
  | some i => simp [cellGet, hseg]
  | none => simp [cellGet, hseg, alookup]

theorem cellGet_empty_obj (s : Seg) : cellGet (.hobj []) s = .prim .hundef := rfl

theorem put_next (h : Heap) (r : Nat) (c : HCell) : (h.put r c).next = h.next := rfl

theorem alloc_next (h : Heap) (c : HCell) : (h.alloc c).1.next = h.next + 1 := rfl

theorem alloc_snd (h : Heap) (c : HCell) : (h.alloc c).2 = h.next := rfl

theorem setGoH_last (h : Heap) (c : Nat) (last : Seg) (v : HVal) :
    setGoH h c [last] v = h.put c (cellSet ((h.find c).getD (.hobj [])) last v) := rfl

theorem setGoH_cons_cons_not_nullish (h : Heap) (c : Nat) (s s1 : Seg) (rest' : List Seg)
    (v : HVal) (cellC : HCell) (hfc : h.find c = some cellC) (hcn : c ≠ h.next)
    (hnn : isNullishH (cellGet cellC s) = false) :
    setGoH h c (s :: s1 :: rest') v =
      setGoH ((h.alloc (copyOf h (cellGet cellC s))).1.put c
          (cellSet cellC s (.ref h.next)))
        h.next (s1 :: rest') v := by
  show (let cell0 := (h.find c).getD (.hobj [])
        let child0 := cellGet cell0 s
        let st1 :=
          if isNullishH child0 then
            let al := h.alloc (match (s1 :: rest').head? with
              | some n => emptyForH n
              | none => .hobj [])
            (al.1.put c (cellSet cell0 s (.ref al.2)), HVal.ref al.2)
          else (h, child0)
        let al2 := st1.1.alloc (copyOf st1.1 st1.2)
        let cell1 := (al2.1.find c).getD (.hobj [])
        let h3 := al2.1.put c (cellSet cell1 s (.ref al2.2))
        setGoH h3 al2.2 (s1 :: rest') v) = _
  simp only [hfc, Option.getD_some, hnn, Bool.false_eq_true, if_false]
  have hfind : ((h.alloc (copyOf h (cellGet cellC s))).1.find c) = some cellC := by
    rw [find_alloc, if_neg (fun hh => hcn hh.symm), hfc]
  simp only [hfind, Option.getD_some]
  rfl

theorem setGoH_cons_cons_nullish (h : Heap) (c : Nat) (s s1 : Seg) (rest' : List Seg)
    (v : HVal) (cellC : HCell) (hfc : h.find c = some cellC) (hcn : c ≠ h.next)
    (hcn2 : c ≠ h.next + 1)
    (hnl : isNullishH (cellGet cellC s) = true) :
    setGoH h c (s :: s1 :: rest') v =
      setGoH
        ((((h.alloc (emptyForH s1)).1.put c (cellSet cellC s (.ref h.next))).alloc
            (copyOf ((h.alloc (emptyForH s1)).1.put c (cellSet cellC s (.ref h.next)))
              (.ref h.next))).1.put c
          (cellSet (cellSet cellC s (.ref h.next)) s (.ref (h.next + 1))))
        (h.next + 1) (s1 :: rest') v := by
  show (let cell0 := (h.find c).getD (.hobj [])
        let child0 := cellGet cell0 s
        let st1 :=
          if isNullishH child0 then
            let al := h.alloc (match (s1 :: rest').head? with
              | some n => emptyForH n
              | none => .hobj [])
            (al.1.put c (cellSet cell0 s (.ref al.2)), HVal.ref al.2)
          else (h, child0)
        let al2 := st1.1.alloc (copyOf st1.1 st1.2)
        let cell1 := (al2.1.find c).getD (.hobj [])
        let h3 := al2.1.put c (cellSet cell1 s (.ref al2.2))
        setGoH h3 al2.2 (s1 :: rest') v) = _
  simp only [hfc, Option.getD_some, hnl, if_true]
  simp only [List.head?_cons]
  simp only [alloc_snd, put_next, alloc_next]
  have hfind : (((h.alloc (emptyForH s1)).1.put c (cellSet cellC s (.ref h.next))).alloc
      (copyOf ((h.alloc (emptyForH s1)).1.put c (cellSet cellC s (.ref h.next)))
        (.ref h.next))).1.find c = some (cellSet cellC s (.ref h.next)) := by
    rw [find_alloc]
    rw [if_neg (by
      show ¬ ((h.alloc (emptyForH s1)).1.put c (cellSet cellC s (.ref h.next))).next = c
      rw [put_next, alloc_next]
      exact fun hh => hcn2 hh.symm)]
    rw [find_put, if_pos rfl]
  simp only [hfind, Option.getD_some]

theorem cellGet_cellC (h0 : Heap) (vOld : HVal) (cellC : HCell) (s : Seg)
    (hjson : Heap.jsonArraysB h0 = true)
    (hcell : cellC = copyOf h0 vOld ∨
      (isNullishH vOld = true ∧ (cellC = .harr [] [] ∨ cellC = .hobj []))) :
    cellGet cellC s = hIndex h0 vOld s := by
  rcases hcell with hc | ⟨hn, hc | hc⟩
  · subst hc
    exact cellGet_copyOf h0 vOld s hjson
  · subst hc
    rw [cellGet_empty_arr, hIndex_nullish h0 vOld s hn]
  · subst hc
    rw [cellGet_empty_obj, hIndex_nullish h0 vOld s hn]

theorem setGoH_main : ∀ (path : List Seg) (h0 h : Heap) (c : Nat) (vOld value : HVal),
    path ≠ [] →
    Heap.closedB h0 = true →
    Heap.jsonArraysB h0 = true →
    HVal.belowB h0.next vOld = true →
    h0.next ≤ h.next →
    (∀ r, r < h0.next → h.find r = h0.find r) →
    h0.next ≤ c → c < h.next →
    (∃ cellC, h.find c = some cellC ∧
      (cellC = copyOf h0 vOld ∨
        (isNullishH vOld = true ∧ (cellC = .harr [] [] ∨ cellC = .hobj [])))) →
    (h.next ≤ (setGoH h c path value).next ∧
      (∀ r, r < h.next → r ≠ c → (setGoH h c path value).find r = h.find r)) ∧
    (∀ q, ¬ (q.map segStr <+: path.map segStr) → ¬ (path.map segStr <+: q.map segStr) →
      resolveH (setGoH h c path value) (.ref c) q = resolveH h0 vOld q) := by
  intro path
  induction path with
  | nil => intro h0 h c vOld value hne; exact absurd rfl hne
  | cons s rest ih =>
      intro h0 h c vOld value hne hclosed hjson hbelow hnext hext hc1 hc2 hcell
      obtain ⟨cellC, hfc, hlike⟩ := hcell
      have hext0 : ∀ r, r < h0.next → r ≠ c → True := fun _ _ _ => trivial
      cases rest with
      | nil =>
          -- setGoH h c [s] value = h.put c (cellSet cellC s value)
          rw [setGoH_last, hfc]
          rw [show (some cellC).getD (.hobj []) = cellC from rfl]
          constructor
          · constructor
            · rw [put_next]
            · intro r hr hrc
              rw [find_put, if_neg (fun hh => hrc hh.symm)]
          · intro q hq1 hq2
            cases q with
            | nil => exact absurd ( List.nil_prefix) hq1
            | cons q0 qr =>
                have hkey : segStr q0 ≠ segStr s := by
                  intro hh
                  exact hq2 (by
                    simp only [List.map_cons, List.map_nil]
                    exact (List.cons_prefix_cons).mpr ⟨hh.symm, List.nil_prefix⟩)
                rw [resolveH_cons_hIndex, resolveH_cons_hIndex]
                have hidx : hIndex (h.put c (cellSet cellC s value)) (.ref c) q0 =
                    cellGet (cellSet cellC s value) q0 := by
                  show (match (h.put c (cellSet cellC s value)).find c with
                    | some cc => cellGet cc q0
                    | none => .prim .hundef) = _
                  rw [find_put, if_pos rfl]
                rw [hidx, cellGet_cellSet_ne cellC s q0 value hkey,
                  cellGet_cellC h0 vOld cellC q0 hjson hlike]
                refine resolveH_frame qr h0 _ _ hclosed ?_ (hIndex_below h0 vOld q0 hclosed hbelow)
                intro r hr
                rw [find_put, if_neg (fun hh => by omega)]
                exact hext r hr
      | cons s1 rest' =>
          have hchild : cellGet cellC s = hIndex h0 vOld s :=
            cellGet_cellC h0 vOld cellC s hjson hlike
          have hbelowchild : HVal.belowB h0.next (cellGet cellC s) = true := by
            rw [hchild]
            exact hIndex_below h0 vOld s hclosed hbelow
          by_cases hnl : isNullishH (cellGet cellC s) = true
          · rw [setGoH_cons_cons_nullish h c s s1 rest' value cellC hfc (by omega) (by omega) hnl]
            have hfe : ((h.alloc (emptyForH s1)).1.put c
                (cellSet cellC s (.ref h.next))).find h.next = some (emptyForH s1) := by
              rw [find_put, if_neg (by omega), find_alloc, if_pos rfl]
            have hcp : copyOf ((h.alloc (emptyForH s1)).1.put c
                  (cellSet cellC s (.ref h.next))) (.ref h.next) = .harr [] [] ∨
                copyOf ((h.alloc (emptyForH s1)).1.put c
                  (cellSet cellC s (.ref h.next))) (.ref h.next) = .hobj [] := by
              have hstep : copyOf ((h.alloc (emptyForH s1)).1.put c
                  (cellSet cellC s (.ref h.next))) (.ref h.next) =
                  (match emptyForH s1 with
                    | HCell.harr es _ => HCell.harr es []
                    | HCell.hobj fs => HCell.hobj fs) := by
                show (match ((h.alloc (emptyForH s1)).1.put c
                    (cellSet cellC s (.ref h.next))).find h.next with
                  | some (.harr es _) => HCell.harr es []
                  | some (.hobj fs) => HCell.hobj fs
                  | none => HCell.hobj []) = _
                rw [hfe]
                cases emptyForH s1 <;> rfl
              rw [hstep]
              unfold emptyForH
              by_cases hb : segIsNum s1 = true
              · rw [if_pos hb]
                exact Or.inl rfl
              · rw [if_neg hb]
                exact Or.inr rfl
            have hfind2 : ((((h.alloc (emptyForH s1)).1.put c
                  (cellSet cellC s (.ref h.next))).alloc
                  (copyOf ((h.alloc (emptyForH s1)).1.put c (cellSet cellC s (.ref h.next)))
                    (.ref h.next))).1.put c
                  (cellSet (cellSet cellC s (.ref h.next)) s (.ref (h.next + 1)))).find
                (h.next + 1) =
                some (copyOf ((h.alloc (emptyForH s1)).1.put c
                  (cellSet cellC s (.ref h.next))) (.ref h.next)) := by
              rw [find_put, if_neg (by omega), find_alloc,
                if_pos (by rw [put_next, alloc_next])]
            have h3next : ((((h.alloc (emptyForH s1)).1.put c
                  (cellSet cellC s (.ref h.next))).alloc
                  (copyOf ((h.alloc (emptyForH s1)).1.put c (cellSet cellC s (.ref h.next)))
                    (.ref h.next))).1.put c
                  (cellSet (cellSet cellC s (.ref h.next)) s (.ref (h.next + 1)))).next =
                h.next + 2 := by
              rw [put_next, alloc_next, put_next, alloc_next]
            have hIH := ih h0
              ((((h.alloc (emptyForH s1)).1.put c (cellSet cellC s (.ref h.next))).alloc
                  (copyOf ((h.alloc (emptyForH s1)).1.put c (cellSet cellC s (.ref h.next)))
                    (.ref h.next))).1.put c
                (cellSet (cellSet cellC s (.ref h.next)) s (.ref (h.next + 1))))
              (h.next + 1) (cellGet cellC s) value (List.cons_ne_nil s1 rest') hclosed hjson
              hbelowchild
              (by rw [h3next]; omega)
              (by
                intro r hr
                rw [find_put, if_neg (by omega), find_alloc,
                  if_neg (by rw [put_next, alloc_next]; omega),
                  find_put, if_neg (by omega), find_alloc, if_neg (by omega)]
                exact hext r hr)
              (by omega)
              (by rw [h3next]; omega)
              ⟨copyOf ((h.alloc (emptyForH s1)).1.put c (cellSet cellC s (.ref h.next)))
                  (.ref h.next),
                hfind2, Or.inr ⟨hnl, hcp⟩⟩
            constructor
            · constructor
              · have := hIH.1.1
                rw [h3next] at this
                omega
              · intro r hr hrc
                rw [hIH.1.2 r (by rw [h3next]; omega) (by omega)]
                rw [find_put, if_neg (fun hh => hrc hh.symm), find_alloc,
                  if_neg (by rw [put_next, alloc_next]; omega),
                  find_put, if_neg (fun hh => hrc hh.symm), find_alloc, if_neg (by omega)]
            · intro q hq1 hq2
              cases q with
              | nil => exact absurd ( List.nil_prefix) hq1
              | cons q0 qr =>
                  have hcfinal : (setGoH ((((h.alloc (emptyForH s1)).1.put c
                        (cellSet cellC s (.ref h.next))).alloc
                        (copyOf ((h.alloc (emptyForH s1)).1.put c
                          (cellSet cellC s (.ref h.next))) (.ref h.next))).1.put c
                        (cellSet (cellSet cellC s (.ref h.next)) s (.ref (h.next + 1))))
                      (h.next + 1) (s1 :: rest') value).find c =
                      some (cellSet (cellSet cellC s (.ref h.next)) s (.ref (h.next + 1))) := by
                    rw [hIH.1.2 c (by rw [h3next]; omega) (by omega)]
                    rw [find_put, if_pos rfl]
                  rw [resolveH_cons_hIndex, resolveH_cons_hIndex]
                  have hidx : hIndex (setGoH ((((h.alloc (emptyForH s1)).1.put c
                        (cellSet cellC s (.ref h.next))).alloc
                        (copyOf ((h.alloc (emptyForH s1)).1.put c
                          (cellSet cellC s (.ref h.next))) (.ref h.next))).1.put c
                        (cellSet (cellSet cellC s (.ref h.next)) s (.ref (h.next + 1))))
                      (h.next + 1) (s1 :: rest') value) (.ref c) q0 =
                      cellGet (cellSet (cellSet cellC s (.ref h.next)) s
                        (.ref (h.next + 1))) q0 := by
                    show (match (setGoH ((((h.alloc (emptyForH s1)).1.put c
                        (cellSet cellC s (.ref h.next))).alloc
                        (copyOf ((h.alloc (emptyForH s1)).1.put c
                          (cellSet cellC s (.ref h.next))) (.ref h.next))).1.put c
                        (cellSet (cellSet cellC s (.ref h.next)) s (.ref (h.next + 1))))
                      (h.next + 1) (s1 :: rest') value).find c with
                      | some cc => cellGet cc q0
                      | none => .prim .hundef) = _
                    rw [hcfinal]
                  by_cases hqs : segStr q0 = segStr s
                  · rw [hidx, cellGet_cellSet_self _ s q0 _ hqs]
                    rw [hIndex_congr h0 vOld s q0 hqs, ← hchild]
                    refine hIH.2 qr ?_ ?_
                    · intro hp
                      exact hq1 (by
                        simp only [List.map_cons]
                        exact (List.cons_prefix_cons).mpr ⟨hqs, hp⟩)
                    · intro hp
                      exact hq2 (by
                        simp only [List.map_cons]
                        exact (List.cons_prefix_cons).mpr ⟨hqs.symm, hp⟩)
                  · rw [hidx, cellGet_cellSet_ne _ s q0 _ hqs, cellGet_cellSet_ne _ s q0 _ hqs,
                      cellGet_cellC h0 vOld cellC q0 hjson hlike]
                    refine resolveH_frame qr h0 _ _ hclosed ?_
                      (hIndex_below h0 vOld q0 hclosed hbelow)
                    intro r hr
                    rw [hIH.1.2 r (by rw [h3next]; omega) (by omega)]
                    rw [find_put, if_neg (by omega), find_alloc,
                      if_neg (by rw [put_next, alloc_next]; omega),
                      find_put, if_neg (by omega), find_alloc, if_neg (by omega)]
                    exact hext r hr
          · have hnn : isNullishH (cellGet cellC s) = false := by
              cases hb : isNullishH (cellGet cellC s)
              · rfl
              · exact absurd hb hnl
            rw [setGoH_cons_cons_not_nullish h c s s1 rest' value cellC hfc (by omega) hnn]
            have hpre_find : ((h.alloc (copyOf h (cellGet cellC s))).1.put c
                (cellSet cellC s (.ref h.next))).find h.next =
                some (copyOf h (cellGet cellC s)) := by
              rw [find_put, if_neg (by omega), find_alloc, if_pos rfl]
            have hcopy_eq : copyOf h (cellGet cellC s) = copyOf h0 (cellGet cellC s) :=
              copyOf_frame h0 h (cellGet cellC s) hbelowchild hext
            have hIH := ih h0
              ((h.alloc (copyOf h (cellGet cellC s))).1.put c (cellSet cellC s (.ref h.next)))
              h.next (cellGet cellC s) value (List.cons_ne_nil s1 rest') hclosed hjson
              hbelowchild
              (by rw [put_next, alloc_next]; omega)
              (by
                intro r hr
                rw [find_put, if_neg (by omega), find_alloc, if_neg (by omega)]
                exact hext r hr)
              (by omega)
              (by rw [put_next, alloc_next]; omega)
              ⟨copyOf h (cellGet cellC s), hpre_find, Or.inl hcopy_eq⟩
            have hprenext : ((h.alloc (copyOf h (cellGet cellC s))).1.put c
                (cellSet cellC s (.ref h.next))).next = h.next + 1 := by
              rw [put_next, alloc_next]
            constructor
            · constructor
              · have := hIH.1.1
                rw [hprenext] at this
                omega
              · intro r hr hrc
                rw [hIH.1.2 r (by omega) (by omega)]
                rw [find_put, if_neg (fun hh => hrc hh.symm), find_alloc, if_neg (by omega)]
            · intro q hq1 hq2
              cases q with
              | nil => exact absurd ( List.nil_prefix) hq1
              | cons q0 qr =>
                  have hcfinal : (setGoH ((h.alloc (copyOf h (cellGet cellC s))).1.put c
                      (cellSet cellC s (.ref h.next))) h.next (s1 :: rest') value).find c =
                      some (cellSet cellC s (.ref h.next)) := by
                    rw [hIH.1.2 c (by omega) (by omega)]
                    rw [find_put, if_pos rfl]
                  rw [resolveH_cons_hIndex, resolveH_cons_hIndex]
                  have hidx : hIndex (setGoH ((h.alloc (copyOf h (cellGet cellC s))).1.put c
                      (cellSet cellC s (.ref h.next))) h.next (s1 :: rest') value)
                      (.ref c) q0 = cellGet (cellSet cellC s (.ref h.next)) q0 := by
                    show (match (setGoH ((h.alloc (copyOf h (cellGet cellC s))).1.put c
                      (cellSet cellC s (.ref h.next))) h.next (s1 :: rest') value).find c with
                      | some cc => cellGet cc q0
                      | none => .prim .hundef) = _
                    rw [hcfinal]
                  by_cases hqs : segStr q0 = segStr s
                  · rw [hidx, cellGet_cellSet_self cellC s q0 (.ref h.next) hqs]
                    rw [hIndex_congr h0 vOld s q0 hqs, ← hchild]
                    refine hIH.2 qr ?_ ?_
                    · intro hp
                      exact hq1 (by
                        simp only [List.map_cons]
                        exact (List.cons_prefix_cons).mpr ⟨hqs, hp⟩)
                    · intro hp
                      exact hq2 (by
                        simp only [List.map_cons]
                        exact (List.cons_prefix_cons).mpr ⟨hqs.symm, hp⟩)
                  · rw [hidx, cellGet_cellSet_ne cellC s q0 _ hqs,
                      cellGet_cellC h0 vOld cellC q0 hjson hlike]
                    refine resolveH_frame qr h0 _ _ hclosed ?_
                      (hIndex_below h0 vOld q0 hclosed hbelow)
                    intro r hr
                    rw [hIH.1.2 r (by omega) (by omega)]
                    rw [find_put, if_neg (by omega), find_alloc, if_neg (by omega)]
                    exact hext r hr

/-- C3 (structural sharing): over the heap embedding, for every closed
JSON-shaped heap, root value and non-empty path, `setAtPath` (i) never
mutates a cell of the input heap — every input address still holds its
old cell, all copies living at fresh addresses; (ii) returns a fresh
reference as the new root; and (iii) leaves every sibling — every
location whose key path neither lies on the written key path nor extends
it — resolving to the *identical* value as in the input heap, which for
containers is reference identity. -/
theorem setAtPathH_frame_sharing (h : Heap) (root : HVal) (path : List Seg) (value : HVal)
    (hne : path ≠ [])
    (hclosed : Heap.closedB h = true)
    (hjson : Heap.jsonArraysB h = true)
    (hroot : HVal.belowB h.next root = true) :
    (∀ r, r < h.next → (setAtPathH h root path value).1.find r = h.find r) ∧
    (∃ r0, (setAtPathH h root path value).2 = .ref r0 ∧ h.next ≤ r0) ∧
    (∀ q, ¬ (q.map segStr <+: path.map segStr) → ¬ (path.map segStr <+: q.map segStr) →
      resolveH (setAtPathH h root path value).1 (setAtPathH h root path value).2 q =
        resolveH h root q) := by
  cases path with
  | nil => exact absurd rfl hne
  | cons s rest =>
      have hmain := setGoH_main (s :: rest) h ((h.alloc (copyOf h root)).1) h.next root value
        (List.cons_ne_nil s rest) hclosed hjson hroot
        (by rw [alloc_next]; omega)
        (fun r hr => by rw [find_alloc, if_neg (by omega)])
        (le_refl _)
        (by rw [alloc_next]; omega)
        ⟨copyOf h root, by rw [find_alloc, if_pos rfl], Or.inl rfl⟩
      refine ⟨?_, ⟨h.next, rfl, le_refl _⟩, ?_⟩
      · intro r hr
        have hfr := hmain.1.2 r (by rw [alloc_next]; omega) (by omega)
        rw [show (setAtPathH h root (s :: rest) value).1 =
          setGoH ((h.alloc (copyOf h root)).1) h.next (s :: rest) value from rfl]
        rw [hfr, find_alloc, if_neg (by omega)]
      · intro q hq1 hq2
        rw [show (setAtPathH h root (s :: rest) value).1 =
          setGoH ((h.alloc (copyOf h root)).1) h.next (s :: rest) value from rfl]
        rw [show (setAtPathH h root (s :: rest) value).2 = HVal.ref h.next from rfl]
        exact hmain.2 q hq1 hq2

theorem setAtPathH_frame_sharing_witness :
    (setAtPathH ⟨2, [(0, .hobj [("a", .ref 1)]), (1, .hobj [("b", .prim (.hnum 1))])]⟩
        (.ref 0) [Seg.str "a", Seg.str "b"] (.prim (.hnum 9))).1.find 1 =
      (⟨2, [(0, .hobj [("a", .ref 1)]), (1, .hobj [("b", .prim (.hnum 1))])]⟩ : Heap).find 1 :=
  (setAtPathH_frame_sharing
    ⟨2, [(0, .hobj [("a", .ref 1)]), (1, .hobj [("b", .prim (.hnum 1))])]⟩
    (.ref 0) [Seg.str "a", Seg.str "b"] (.prim (.hnum 9))
    (by decide) (by decide) (by decide) (by decide)).1 1 (by decide)
